import Mathlib

/-!
Verification development for the address recognition and annotation engine of
the `chrome-address-helper` browser extension.

The definitions below are shallow embeddings of the TypeScript sources:

* `src/utils/address.ts` — the pure pattern matcher (`normalizeAddress`,
  `findAddressesInText`, `matchTruncatedAddress`);
* `src/content/index.ts` — the DOM annotator (`scanPage`, `processTextNode`,
  `processTruncatedAddresses`, `findAddressInAttributes`,
  `createAddressElement`, the `TAGS_UPDATED` handler), the hover panel timers
  (`showControlPanel`, `showControlPanelNow`, `hideControlPanelDelayed`) and
  the Arkham importer (`fetchArkhamLabels`).

JavaScript regular expressions are embedded by their operational semantics:
a leftmost match with greedy, backtracking quantifiers.  For every pattern in
the sources (which are all of the form "literal, hex run, dot run, hex run")
greedy matching at a fixed position coincides with taking the maximal runs, as
argued in the doc comment of each scanner below.  Machine integers do not
occur (all indices are JavaScript numbers used as array indices), so `Nat`
is used throughout.
-/

namespace AddrHelper

/-- Character class of the regex fragment `[a-fA-F0-9]` (it is its own
case-insensitive closure, so the `i` flag does not enlarge it). -/
def isHexDigit (c : Char) : Bool :=
  (('0' ≤ c) && (c ≤ '9')) || (('a' ≤ c) && (c ≤ 'f')) || (('A' ≤ c) && (c ≤ 'F'))

/-- JavaScript `s.slice(a, b)` for natural `a ≤ b` (both clamped to the
length). -/
def jsSlice (s : String) (a b : Nat) : String := ⟨(s.data.take b).drop a⟩

/-- JavaScript `s.slice(a)` for natural `a`. -/
def jsSliceFrom (s : String) (a : Nat) : String := ⟨s.data.drop a⟩

/-- JavaScript `s.slice(-n)`: the last `n` characters (the whole string when
`n` exceeds the length, matching `max(len - n, 0)` clamping). -/
def jsSliceLast (s : String) (n : Nat) : String := ⟨s.data.drop (s.data.length - n)⟩

/-- JavaScript `s.includes(pat)`. -/
def containsStr (s pat : String) : Bool := decide (pat.data <:+: s.data)

/-- `normalizeAddress` from `src/utils/address.ts`: lowercase the address
(`toLowerCase()`, embedded character by character). -/
def normalizeAddress (address : String) : String := ⟨address.data.map Char.toLower⟩

/-- `AddressMatch` from `src/utils/address.ts`. -/
structure AddressMatch where
  address : String
  fullMatch : String
  startIndex : Nat
  endIndex : Nat
  isTruncated : Bool
deriving Repr, DecidableEq

/-- Matching the full-address regex `0x[a-fA-F0-9]{40}` (with the `i` flag,
so the literal `x` also matches `X`) anchored at the head of the character
list: returns the 42-character match when the head is `0`, the next character
is `x` or `X`, and at least 40 hex digits follow. -/
def matchFull40 (l : List Char) : Option (List Char) :=
  match l with
  | c0 :: c1 :: rest =>
    if c0 = '0' ∧ (c1 = 'x' ∨ c1 = 'X') ∧ 40 ≤ rest.length ∧ (rest.take 40).all isHexDigit
    then some (c0 :: c1 :: rest.take 40) else none
  | _ => none

/-- The `fullRegex.exec` loop of `findAddressesInText` with the `g` flag:
scan left to right; at each position try `matchFull40`; on a match record
`(index, matched characters)` and resume after the match (`lastIndex`),
otherwise advance one character. -/
def scanFull (l : List Char) : List (Nat × List Char) :=
  match l with
  | [] => []
  | c :: rest =>
    match matchFull40 (c :: rest) with
    | some m =>
      (0, m) :: (scanFull ((c :: rest).drop 42)).map (fun p => (p.1 + 42, p.2))
    | none => (scanFull rest).map (fun p => (p.1 + 1, p.2))
termination_by l.length
decreasing_by
  · simp only [List.length_drop, List.length_cons]; omega
  · simp only [List.length_cons]; omega

/-- `findAddressesInText` from `src/utils/address.ts` (the truncated branch
of the interface is unused there: the function only scans for full
addresses). -/
def findAddressesInText (text : String) : List AddressMatch :=
  (scanFull text.data).map (fun p =>
    { address := normalizeAddress ⟨p.2⟩
      fullMatch := ⟨p.2⟩
      startIndex := p.1
      endIndex := p.1 + p.2.length
      isTruncated := false })

/-- Positions of all full-address occurrences in `text`: the spec-side notion
of "occurrence" used to count matches. -/
def occPositions (text : String) : List Nat :=
  (List.range text.data.length).filter (fun i => (matchFull40 (text.data.drop i)).isSome)

/-- Matching `([a-fA-F0-9]{3,8})\.{2,3}([a-fA-F0-9]{3,8})` right after a
`0x` literal.  Greedy backtracking collapses to maximal runs: a hex run
longer than 8 leaves a hex digit (never a dot) after every prefix of length
3..8, so the prefix run length must be between 3 and 8 exactly; likewise a
dot run of length 4 or more leaves a dot (never a hex digit) after 2 or 3
dots, so the dot run length must be 2 or 3 exactly; the trailing hex group
has no following context, so it greedily takes at most 8 of the final run. -/
def truncParseAfter0x (l : List Char) : Option (List Char × List Char) :=
  let p := l.takeWhile isHexDigit
  if 3 ≤ p.length ∧ p.length ≤ 8 then
    let r1 := l.dropWhile isHexDigit
    let d := r1.takeWhile (fun c => c = '.')
    if d.length = 2 ∨ d.length = 3 then
      let s := (r1.dropWhile (fun c => c = '.')).takeWhile isHexDigit
      if 3 ≤ s.length then some (p, s.take 8) else none
    else none
  else none

/-- Leftmost match of `/0x([a-fA-F0-9]{3,8})\.{2,3}([a-fA-F0-9]{3,8})/i` in
`truncated.match(...)` of `matchTruncatedAddress`: returns the two capture
groups of the first position whose tail parses. -/
def truncFind : List Char → Option (List Char × List Char)
  | [] => none
  | c1 :: rest =>
    match rest with
    | [] => none
    | c2 :: rest2 =>
      if c1 = '0' ∧ (c2 = 'x' ∨ c2 = 'X') then
        match truncParseAfter0x rest2 with
        | some r => some r
        | none => truncFind rest
      else truncFind rest

/-- The `for (const address of knownAddresses)` loop of
`matchTruncatedAddress`: return the normalization of the first known address
whose slice after `0x` starts with `pre` and which ends with `suf`. -/
def matchKnownLoop (pre suf : String) : List String → Option String
  | [] => none
  | a :: rest =>
    let n := normalizeAddress a
    if jsSlice n 2 (2 + pre.length) = pre ∧ jsSliceLast n suf.length = suf
    then some n else matchKnownLoop pre suf rest

/-- `matchTruncatedAddress` from `src/utils/address.ts`. -/
def matchTruncatedAddress (truncated : String) (knownAddresses : List String) :
    Option String :=
  match truncFind truncated.data with
  | none => none
  | some (p, s) =>
    matchKnownLoop ⟨p.map Char.toLower⟩ ⟨s.map Char.toLower⟩ knownAddresses

/-- The side-by-side comparison `matchTruncatedAddress` performs for one
known address: prefix (after `0x`) and suffix compared case-insensitively. -/
def truncSideMatch (p s : List Char) (a : String) : Bool :=
  let n := normalizeAddress a
  decide (jsSlice n 2 (2 + p.length) = (⟨p.map Char.toLower⟩ : String) ∧
    jsSliceLast n s.length = (⟨s.map Char.toLower⟩ : String))

/-! ### Structural lemmas about the full-address scanner -/

/-- A successful anchored full-address match is the 42-character head slice. -/
theorem matchFull40_eq {l m : List Char} (h : matchFull40 l = some m) :
    m = l.take 42 ∧ 42 ≤ l.length := by
  match l with
  | [] => simp [matchFull40] at h
  | [c] => simp [matchFull40] at h
  | c0 :: c1 :: rest =>
    rw [matchFull40] at h
    split at h
    · rename_i hc
      obtain ⟨h0, h1, hlen, hhex⟩ := hc
      injection h with h
      subst h
      constructor
      · simp [List.take_succ_cons]
      · simp only [List.length_cons]; omega
    · exact absurd h (by simp)

/-- The length of a successful full-address match is exactly 42. -/
theorem matchFull40_length {l m : List Char} (h : matchFull40 l = some m) :
    m.length = 42 := by
  obtain ⟨hm, hl⟩ := matchFull40_eq h
  subst hm
  simp [List.length_take]
  omega

theorem scanFull_mem_aux : ∀ (n : Nat) (l : List Char), l.length ≤ n →
    ∀ p ∈ scanFull l, matchFull40 (l.drop p.1) = some p.2 := by
  intro n
  induction n with
  | zero =>
    intro l hl p hp
    have : l = [] := List.length_eq_zero.mp (Nat.le_zero.mp hl)
    subst this
    simp [scanFull] at hp
  | succ n ih =>
    intro l hl p hp
    cases l with
    | nil => simp [scanFull] at hp
    | cons c rest =>
      rw [scanFull] at hp
      cases hm : matchFull40 (c :: rest) with
      | some m =>
        rw [hm] at hp
        simp only [List.mem_cons, List.mem_map] at hp
        rcases hp with rfl | ⟨q, hq, rfl⟩
        · simpa using hm
        · have hlen : ((c :: rest).drop 42).length ≤ n := by
            simp only [List.length_drop, List.length_cons] at hl ⊢
            omega
          have hrec := ih ((c :: rest).drop 42) hlen q hq
          rw [List.drop_drop] at hrec
          simpa [Nat.add_comm] using hrec
      | none =>
        rw [hm] at hp
        simp only [List.mem_map] at hp
        obtain ⟨q, hq, rfl⟩ := hp
        have hrec := ih rest (by simp only [List.length_cons] at hl; omega) q hq
        simpa [List.drop_succ_cons] using hrec

/-- Every recorded scan position carries the anchored match at that
position. -/
theorem scanFull_mem {l : List Char} {p : Nat × List Char} (hp : p ∈ scanFull l) :
    matchFull40 (l.drop p.1) = some p.2 :=
  scanFull_mem_aux l.length l le_rfl p hp

theorem scanFull_chain_aux : ∀ (n : Nat) (l : List Char), l.length ≤ n →
    List.Chain' (fun p q : Nat × List Char => p.1 + 42 ≤ q.1) (scanFull l) := by
  intro n
  induction n with
  | zero =>
    intro l hl
    have : l = [] := List.length_eq_zero.mp (Nat.le_zero.mp hl)
    subst this
    simp [scanFull]
  | succ n ih =>
    intro l hl
    cases l with
    | nil => simp [scanFull]
    | cons c rest =>
      rw [scanFull]
      cases hm : matchFull40 (c :: rest) with
      | some m =>
        rw [List.chain'_cons']
        constructor
        · intro y hy
          rcases List.mem_map.mp (List.mem_of_mem_head? hy) with ⟨q, _, rfl⟩
          show (0 : Nat) + 42 ≤ q.1 + 42
          omega
        · rw [List.chain'_map]
          have hlen : ((c :: rest).drop 42).length ≤ n := by
            simp only [List.length_drop, List.length_cons] at hl ⊢
            omega
          exact (ih _ hlen).imp (by intro a b hab; omega)
      | none =>
        rw [List.chain'_map]
        have hlen : rest.length ≤ n := by
          simp only [List.length_cons] at hl; omega
        exact (ih rest hlen).imp (by intro a b hab; omega)

/-- The scan records its matches in strictly increasing, pairwise disjoint
positions (each new match starts at or after the previous end). -/
theorem scanFull_chain (l : List Char) :
    List.Chain' (fun p q : Nat × List Char => p.1 + 42 ≤ q.1) (scanFull l) :=
  scanFull_chain_aux l.length l le_rfl

/-- Recursive form of the occurrence positions of full addresses. -/
def occList : List Char → List Nat
  | [] => []
  | c :: rest =>
    (if (matchFull40 (c :: rest)).isSome then [0] else []) ++ (occList rest).map (· + 1)

theorem occList_eq_filter (l : List Char) :
    occList l = (List.range l.length).filter (fun i => (matchFull40 (l.drop i)).isSome) := by
  induction l with
  | nil => simp [occList]
  | cons c rest ih =>
    rw [occList, ih, List.length_cons, List.range_succ_eq_map, List.filter_cons,
      List.filter_map]
    have hcomp : ((fun i => (matchFull40 ((c :: rest).drop i)).isSome) ∘ Nat.succ) =
        fun i => (matchFull40 (rest.drop i)).isSome := by
      funext i
      simp [List.drop_succ_cons]
    rw [hcomp]
    have hmap : List.map Nat.succ ((List.range rest.length).filter
        (fun i => (matchFull40 (rest.drop i)).isSome)) =
        ((List.range rest.length).filter
        (fun i => (matchFull40 (rest.drop i)).isSome)).map (· + 1) :=
      List.map_congr_left (fun a _ => rfl)
    simp only [List.drop_zero]
    by_cases hq : (matchFull40 (c :: rest)).isSome = true
    · rw [if_pos hq, if_pos hq, hmap]
      simp
    · rw [if_neg hq, if_neg hq, hmap]
      simp

/-- Shifting occurrence positions across a `drop`, when every occurrence sits
at or beyond the dropped region. -/
theorem occList_drop : ∀ (d : Nat) (l : List Char), (∀ j ∈ occList l, d ≤ j) →
    occList l = (occList (l.drop d)).map (· + d) := by
  intro d
  induction d with
  | zero => intro l _; simp
  | succ d ih =>
    intro l h
    cases l with
    | nil => simp [occList]
    | cons c rest =>
      have h0 : ¬ (matchFull40 (c :: rest)).isSome = true := by
        intro hc
        have : (0 : Nat) ∈ occList (c :: rest) := by
          rw [occList, if_pos hc]; simp
        exact absurd (h 0 this) (by omega)
      have hrest : ∀ j ∈ occList rest, d ≤ j := by
        intro j hj
        have : j + 1 ∈ occList (c :: rest) := by
          rw [occList, if_neg h0]
          simp only [List.nil_append, List.mem_map]
          exact ⟨j, hj, rfl⟩
        have := h (j + 1) this
        omega
      rw [occList, if_neg h0, List.nil_append, ih rest hrest, List.drop_succ_cons,
        List.map_map]
      exact List.map_congr_left fun a _ => rfl

theorem chain_shift {d : Nat} {X : List Nat} :
    List.Chain' (fun i j => i + 42 ≤ j) (X.map (· + d)) ↔
      List.Chain' (fun i j => i + 42 ≤ j) X := by
  rw [List.chain'_map]
  constructor
  · intro h; exact h.imp (by intro a b hab; omega)
  · intro h; exact h.imp (by intro a b hab; omega)

theorem scanFull_complete_aux : ∀ (n : Nat) (l : List Char), l.length ≤ n →
    List.Chain' (fun i j => i + 42 ≤ j) (occList l) →
    (scanFull l).map (fun p => p.1) = occList l := by
  intro n
  induction n with
  | zero =>
    intro l hl _
    have : l = [] := List.length_eq_zero.mp (Nat.le_zero.mp hl)
    subst this
    simp [scanFull, occList]
  | succ n ih =>
    intro l hl hchain
    cases l with
    | nil => simp [scanFull, occList]
    | cons c rest =>
      rw [scanFull]
      cases hm : matchFull40 (c :: rest) with
      | none =>
        have hocc : occList (c :: rest) = (occList rest).map (· + 1) := by
          rw [occList, hm]; simp
        rw [hocc]
        rw [hocc] at hchain
        have hch : List.Chain' (fun i j => i + 42 ≤ j) (occList rest) :=
          (chain_shift (d := 1)).mp hchain
        have hrec := ih rest (by simp only [List.length_cons] at hl; omega) hch
        rw [List.map_map, ← hrec, List.map_map]
        rfl
      | some m =>
        have hocc : occList (c :: rest) = 0 :: (occList rest).map (· + 1) := by
          rw [occList, hm]; simp
        rw [hocc] at hchain
        haveI : IsTrans Nat (fun i j => i + 42 ≤ j) := ⟨by intro a b c hab hbc; omega⟩
        have hpair := List.chain'_iff_pairwise.mp hchain
        have h41 : ∀ j ∈ occList rest, 41 ≤ j := by
          intro j hj
          have : (0 : Nat) + 42 ≤ j + 1 :=
            (List.pairwise_cons.mp hpair).1 (j + 1) (List.mem_map.mpr ⟨j, hj, rfl⟩)
          omega
        have hshift : occList rest = (occList (rest.drop 41)).map (· + 41) :=
          occList_drop 41 rest h41
        have htail : (occList rest).map (· + 1) = (occList (rest.drop 41)).map (· + 42) := by
          rw [hshift, List.map_map]
          exact List.map_congr_left fun a _ => rfl
        have hchY : List.Chain' (fun i j => i + 42 ≤ j) (occList (rest.drop 41)) := by
          have := (List.chain'_cons'.mp hchain).2
          rw [htail] at this
          exact (chain_shift (d := 42)).mp this
        have hlen : (rest.drop 41).length ≤ n := by
          simp only [List.length_drop, List.length_cons] at hl ⊢
          omega
        have hrec := ih (rest.drop 41) hlen hchY
        rw [hocc, htail]
        have hdrop : (c :: rest).drop 42 = rest.drop 41 := rfl
        rw [hdrop, List.map_cons, List.map_map, ← hrec, List.map_map]
        rfl

/-- Under pairwise-disjoint occurrences, the scan finds exactly the
occurrence positions. -/
theorem scanFull_complete (l : List Char)
    (h : List.Chain' (fun i j => i + 42 ≤ j) (occList l)) :
    (scanFull l).map (fun p => p.1) = occList l :=
  scanFull_complete_aux l.length l le_rfl h

theorem occPositions_eq (T : String) : occPositions T = occList T.data :=
  (occList_eq_filter T.data).symm

/-- **C2.** For every input string `T` whose full-address occurrences are
pairwise disjoint, `findAddressesInText T` returns exactly one record per
occurrence, ordered by `startIndex` ascending and non-overlapping, and every
record satisfies `startIndex < endIndex ≤ length T`, `fullMatch` equals the
slice `T[startIndex..endIndex)`, and `address` is the lowercase form of that
slice. -/
theorem C2_findAddressesInText_spec (T : String)
    (hdisj : List.Chain' (fun i j => i + 42 ≤ j) (occPositions T)) :
    (findAddressesInText T).length = (occPositions T).length ∧
    (findAddressesInText T).map (fun m => m.startIndex) = occPositions T ∧
    List.Chain' (fun m m2 => m.endIndex ≤ m2.startIndex) (findAddressesInText T) ∧
    ∀ m ∈ findAddressesInText T,
      m.startIndex < m.endIndex ∧ m.endIndex ≤ T.length ∧
      m.fullMatch = jsSlice T m.startIndex m.endIndex ∧
      m.address = normalizeAddress (jsSlice T m.startIndex m.endIndex) := by
  rw [occPositions_eq] at hdisj ⊢
  have hmapfst : (findAddressesInText T).map (fun m => m.startIndex) =
      (scanFull T.data).map (fun p => p.1) := by
    rw [findAddressesInText, List.map_map]
    rfl
  have hcomplete := scanFull_complete T.data hdisj
  refine ⟨?_, ?_, ?_, ?_⟩
  · have h1 : (findAddressesInText T).length =
        ((findAddressesInText T).map (fun m => m.startIndex)).length := by
      rw [List.length_map]
    rw [h1, hmapfst, hcomplete]
  · rw [hmapfst, hcomplete]
  · haveI : IsTrans (Nat × List Char) (fun p q => p.1 + 42 ≤ q.1) :=
      ⟨by intro a b c hab hbc; omega⟩
    have hpair := List.chain'_iff_pairwise.mp (scanFull_chain T.data)
    rw [findAddressesInText]
    apply List.Pairwise.chain'
    rw [List.pairwise_map]
    refine hpair.imp_of_mem ?_
    intro p q hp _ hpq
    have h42 := matchFull40_length (scanFull_mem hp)
    show p.1 + p.2.length ≤ q.1
    omega
  · intro m hm
    rw [findAddressesInText, List.mem_map] at hm
    obtain ⟨p, hp, rfl⟩ := hm
    have hmem := scanFull_mem hp
    obtain ⟨hslice, hlen⟩ := matchFull40_eq hmem
    have h42 := matchFull40_length hmem
    have hbound : p.1 + 42 ≤ T.data.length := by
      rw [List.length_drop] at hlen
      omega
    have hgoal : List.drop p.1 (List.take (p.1 + 42) T.data) = p.2 := by
      rw [List.drop_take, show p.1 + 42 - p.1 = 42 from by omega]
      exact hslice.symm
    refine ⟨by simp [h42], ?_, ?_, ?_⟩
    · show p.1 + p.2.length ≤ T.length
      rw [h42]
      exact hbound
    · show (⟨p.2⟩ : String) = jsSlice T p.1 (p.1 + p.2.length)
      rw [h42, jsSlice]
      exact congrArg String.mk hgoal.symm
    · show normalizeAddress ⟨p.2⟩ = normalizeAddress (jsSlice T p.1 (p.1 + p.2.length))
      rw [h42, jsSlice]
      exact congrArg (fun l => normalizeAddress ⟨l⟩) hgoal.symm

/-- Witness for C2 on a text with two disjoint full addresses. -/
theorem C2_findAddressesInText_spec_witness :
    List.Chain' (fun i j => i + 42 ≤ j)
      (occPositions
        "0xaaaaaaaaaaaaaaaaaaaaaaaaaaaaaaaaaaaaaaaa 0xBBBBBBBBBBBBBBBBBBBBBBBBBBBBBBBBBBBBBBBB") ∧
    (findAddressesInText
        "0xaaaaaaaaaaaaaaaaaaaaaaaaaaaaaaaaaaaaaaaa 0xBBBBBBBBBBBBBBBBBBBBBBBBBBBBBBBBBBBBBBBB").map
        (fun m => m.startIndex) =
      occPositions
        "0xaaaaaaaaaaaaaaaaaaaaaaaaaaaaaaaaaaaaaaaa 0xBBBBBBBBBBBBBBBBBBBBBBBBBBBBBBBBBBBBBBBB" :=
  have hocc : occPositions
      "0xaaaaaaaaaaaaaaaaaaaaaaaaaaaaaaaaaaaaaaaa 0xBBBBBBBBBBBBBBBBBBBBBBBBBBBBBBBBBBBBBBBB" =
      [0, 43] := by decide
  have hch : List.Chain' (fun i j => i + 42 ≤ j) (occPositions
      "0xaaaaaaaaaaaaaaaaaaaaaaaaaaaaaaaaaaaaaaaa 0xBBBBBBBBBBBBBBBBBBBBBBBBBBBBBBBBBBBBBBBB") := by
    rw [hocc, List.chain'_cons]
    exact ⟨by omega, List.chain'_singleton _⟩
  ⟨hch,
    (C2_findAddressesInText_spec
      "0xaaaaaaaaaaaaaaaaaaaaaaaaaaaaaaaaaaaaaaaa 0xBBBBBBBBBBBBBBBBBBBBBBBBBBBBBBBBBBBBBBBB"
      hch).2.1⟩

/-! ### Lemmas for the truncated-address matcher -/

theorem takeWhile_append_all {p : Char → Bool} {xs : List Char} (ys : List Char)
    (h : ∀ c ∈ xs, p c = true) :
    (xs ++ ys).takeWhile p = xs ++ ys.takeWhile p := by
  induction xs with
  | nil => simp
  | cons x xs ih =>
    rw [List.cons_append, List.takeWhile_cons, if_pos (h x (by simp)),
      ih (fun c hc => h c (by simp [hc])), List.cons_append]

theorem dropWhile_append_all {p : Char → Bool} {xs : List Char} (ys : List Char)
    (h : ∀ c ∈ xs, p c = true) :
    (xs ++ ys).dropWhile p = ys.dropWhile p := by
  induction xs with
  | nil => simp
  | cons x xs ih =>
    rw [List.cons_append, List.dropWhile_cons, if_pos (h x (by simp))]
    exact ih (fun c hc => h c (by simp [hc]))

theorem takeWhile_all {p : Char → Bool} {xs : List Char} (h : ∀ c ∈ xs, p c = true) :
    xs.takeWhile p = xs := by
  induction xs with
  | nil => rfl
  | cons x xs ih =>
    rw [List.takeWhile_cons, if_pos (h x (by simp)), ih (fun c hc => h c (by simp [hc]))]

theorem takeWhile_head_neg {p : Char → Bool} {x : Char} (xs : List Char) (h : ¬ p x = true) :
    (x :: xs).takeWhile p = [] := by
  rw [List.takeWhile_cons, if_neg h]

theorem dropWhile_head_neg {p : Char → Bool} {x : Char} (xs : List Char) (h : ¬ p x = true) :
    (x :: xs).dropWhile p = x :: xs := by
  rw [List.dropWhile_cons, if_neg h]

/-- On an input of exactly the truncated shape (prefix of 3–8 hex digits,
2–3 dots, suffix of 3–8 hex digits), the anchored parse recovers exactly the
prefix and the suffix. -/
theorem truncParseAfter0x_shape (p s : List Char) (d : Nat)
    (hp3 : 3 ≤ p.length) (hp8 : p.length ≤ 8) (hphex : ∀ c ∈ p, isHexDigit c = true)
    (hs3 : 3 ≤ s.length) (hs8 : s.length ≤ 8) (hshex : ∀ c ∈ s, isHexDigit c = true)
    (hd : d = 2 ∨ d = 3) :
    truncParseAfter0x (p ++ (List.replicate d '.' ++ s)) = some (p, s) := by
  obtain ⟨s0, s1, rfl⟩ : ∃ a t, s = a :: t := by
    cases s with
    | nil => simp at hs3
    | cons a t => exact ⟨a, t, rfl⟩
  have hs0hex : isHexDigit s0 = true := hshex s0 (by simp)
  have hs0dot : ¬ (decide (s0 = '.') = true) := by
    simp only [decide_eq_true_eq]
    intro he
    rw [he] at hs0hex
    exact absurd hs0hex (by decide)
  have hsdots : (s0 :: s1).takeWhile (fun c => decide (c = '.')) = [] :=
    takeWhile_head_neg _ hs0dot
  have hsdrop : (s0 :: s1).dropWhile (fun c => decide (c = '.')) = s0 :: s1 :=
    dropWhile_head_neg _ hs0dot
  rcases hd with rfl | rfl
  · rw [show List.replicate 2 '.' ++ (s0 :: s1) = '.' :: '.' :: (s0 :: s1) from rfl]
    have htw : (p ++ ('.' :: '.' :: (s0 :: s1))).takeWhile isHexDigit = p := by
      rw [takeWhile_append_all _ hphex, takeWhile_head_neg _ (by decide), List.append_nil]
    have hdw : (p ++ ('.' :: '.' :: (s0 :: s1))).dropWhile isHexDigit =
        '.' :: '.' :: (s0 :: s1) := by
      rw [dropWhile_append_all _ hphex]
      exact dropWhile_head_neg _ (by decide)
    have hdots : ('.' :: '.' :: (s0 :: s1)).takeWhile (fun c => decide (c = '.')) =
        ['.', '.'] := by
      rw [List.takeWhile_cons, if_pos (by decide), List.takeWhile_cons, if_pos (by decide),
        hsdots]
    have hdrop2 : ('.' :: '.' :: (s0 :: s1)).dropWhile (fun c => decide (c = '.')) =
        s0 :: s1 := by
      rw [List.dropWhile_cons, if_pos (by decide), List.dropWhile_cons, if_pos (by decide),
        hsdrop]
    rw [truncParseAfter0x]
    simp only [htw, hdw, hdots, hdrop2, takeWhile_all hshex]
    rw [if_pos ⟨hp3, hp8⟩,
      if_pos (show (['.', '.'] : List Char).length = 2 ∨ (['.', '.'] : List Char).length = 3
        from Or.inl rfl),
      if_pos hs3, List.take_of_length_le hs8]
  · rw [show List.replicate 3 '.' ++ (s0 :: s1) = '.' :: '.' :: '.' :: (s0 :: s1) from rfl]
    have htw : (p ++ ('.' :: '.' :: '.' :: (s0 :: s1))).takeWhile isHexDigit = p := by
      rw [takeWhile_append_all _ hphex, takeWhile_head_neg _ (by decide), List.append_nil]
    have hdw : (p ++ ('.' :: '.' :: '.' :: (s0 :: s1))).dropWhile isHexDigit =
        '.' :: '.' :: '.' :: (s0 :: s1) := by
      rw [dropWhile_append_all _ hphex]
      exact dropWhile_head_neg _ (by decide)
    have hdots : ('.' :: '.' :: '.' :: (s0 :: s1)).takeWhile (fun c => decide (c = '.')) =
        ['.', '.', '.'] := by
      rw [List.takeWhile_cons, if_pos (by decide), List.takeWhile_cons, if_pos (by decide),
        List.takeWhile_cons, if_pos (by decide), hsdots]
    have hdrop2 : ('.' :: '.' :: '.' :: (s0 :: s1)).dropWhile (fun c => decide (c = '.')) =
        s0 :: s1 := by
      rw [List.dropWhile_cons, if_pos (by decide), List.dropWhile_cons, if_pos (by decide),
        List.dropWhile_cons, if_pos (by decide), hsdrop]
    rw [truncParseAfter0x]
    simp only [htw, hdw, hdots, hdrop2, takeWhile_all hshex]
    rw [if_pos ⟨hp3, hp8⟩,
      if_pos (show (['.', '.', '.'] : List Char).length = 2 ∨
        (['.', '.', '.'] : List Char).length = 3 from Or.inr rfl),
      if_pos hs3, List.take_of_length_le hs8]

/-- The leftmost regex search of `matchTruncatedAddress` on an exact-shape
input fires at position 0 with the expected capture groups. -/
theorem truncFind_shape {p s : List Char} {d : Nat}
    (h : truncParseAfter0x (p ++ (List.replicate d '.' ++ s)) = some (p, s)) :
    truncFind ('0' :: 'x' :: (p ++ (List.replicate d '.' ++ s))) = some (p, s) := by
  rw [truncFind]
  rw [if_pos ⟨rfl, Or.inl rfl⟩, h]

/-- The scan over known addresses equals `find?` of the side-by-side
comparison, normalizing the winner. -/
theorem matchKnownLoop_eq_find (p s : List Char) (ks : List String) :
    matchKnownLoop ⟨p.map Char.toLower⟩ ⟨s.map Char.toLower⟩ ks =
      (ks.find? (truncSideMatch p s)).map normalizeAddress := by
  induction ks with
  | nil => rfl
  | cons a rest ih =>
    have hl1 : (⟨p.map Char.toLower⟩ : String).length = p.length := by
      show (p.map Char.toLower).length = p.length
      exact List.length_map _ _
    have hl2 : (⟨s.map Char.toLower⟩ : String).length = s.length := by
      show (s.map Char.toLower).length = s.length
      exact List.length_map _ _
    rw [matchKnownLoop, List.find?_cons]
    by_cases hc : (jsSlice (normalizeAddress a) 2 (2 + p.length) =
        (⟨p.map Char.toLower⟩ : String) ∧
        jsSliceLast (normalizeAddress a) s.length = (⟨s.map Char.toLower⟩ : String))
    · rw [show truncSideMatch p s a = true from decide_eq_true hc]
      rw [if_pos (by rw [hl1, hl2]; exact hc)]
      rfl
    · rw [show truncSideMatch p s a = false from decide_eq_false hc]
      rw [if_neg (by rw [hl1, hl2]; exact hc)]
      exact ih

/-- **C3 (amended).** For every truncated display string of the exact shape
`0x` + 3–8 hex digits + 2–3 literal dots + 3–8 hex digits,
`matchTruncatedAddress` compares the prefix (after `0x`) and the suffix
case-insensitively against the corresponding prefix/suffix slices of every
known address and returns the lowercase normalization of the first known
address for which both match; it returns `none` when every known address
mismatches on either side. -/
theorem C3_matchTruncatedAddress_shape (p s : List Char) (d : Nat)
    (known : List String)
    (hp3 : 3 ≤ p.length) (hp8 : p.length ≤ 8) (hphex : ∀ c ∈ p, isHexDigit c = true)
    (hs3 : 3 ≤ s.length) (hs8 : s.length ≤ 8) (hshex : ∀ c ∈ s, isHexDigit c = true)
    (hd : d = 2 ∨ d = 3) :
    matchTruncatedAddress ⟨'0' :: 'x' :: (p ++ (List.replicate d '.' ++ s))⟩ known =
      (known.find? (truncSideMatch p s)).map normalizeAddress := by
  rw [matchTruncatedAddress]
  rw [show (⟨'0' :: 'x' :: (p ++ (List.replicate d '.' ++ s))⟩ : String).data =
    '0' :: 'x' :: (p ++ (List.replicate d '.' ++ s)) from rfl]
  rw [truncFind_shape (truncParseAfter0x_shape p s d hp3 hp8 hphex hs3 hs8 hshex hd)]
  exact matchKnownLoop_eq_find p s known

/-- Witness for the amended C3: `0xabc...89a` resolves against a known
address whose prefix and suffix match case-insensitively. -/
theorem C3_matchTruncatedAddress_shape_witness :
    matchTruncatedAddress ⟨'0' :: 'x' :: ("abc".data ++ (List.replicate 3 '.' ++ "89a".data))⟩
        ["0xABCDEF012300000000000000000000000000789A"] =
      some "0xabcdef012300000000000000000000000000789a" := by
  rw [C3_matchTruncatedAddress_shape "abc".data "89a".data 3
    ["0xABCDEF012300000000000000000000000000789A"]
    (by decide) (by decide) (by decide) (by decide) (by decide) (by decide) (Or.inr rfl)]
  decide

/-- **C3 counterexample.** The claim as stated admits prefixes of 3–10 hex
digits, but the code regex only accepts 3–8: with a 9-digit prefix whose
prefix and suffix both match a known address, the function returns `none`
instead of that known address. -/
theorem C3_counterexample :
    ("0x123456789...abc" : String) =
      ⟨'0' :: 'x' :: ("123456789".data ++ (List.replicate 3 '.' ++ "abc".data))⟩ ∧
    (3 ≤ ("123456789" : String).data.length ∧ ("123456789" : String).data.length ≤ 10) ∧
    ("123456789".data.all isHexDigit ∧ "abc".data.all isHexDigit) = true ∧
    truncSideMatch "123456789".data "abc".data
      "0x1234567890000000000000000000000000000abc" = true ∧
    matchTruncatedAddress "0x123456789...abc"
      ["0x1234567890000000000000000000000000000abc"] = none := by
  refine ⟨by decide, ⟨by decide, by decide⟩, by decide, by decide, by decide⟩

/-- **C10.** `matchTruncatedAddress` never fabricates an address: it returns
`none` on an empty known-address list, and whenever it returns an address,
that address is the lowercase normalization of some element of the
known-address list. -/
theorem C10_matchTruncatedAddress_conservative (t : String) (known : List String) :
    matchTruncatedAddress t [] = none ∧
    ∀ r, matchTruncatedAddress t known = some r → ∃ a ∈ known, r = normalizeAddress a := by
  have hloop : ∀ (pre suf : String) (ks : List String) (r : String),
      matchKnownLoop pre suf ks = some r → ∃ a ∈ ks, r = normalizeAddress a := by
    intro pre suf ks
    induction ks with
    | nil => intro r h; exact absurd h (by simp [matchKnownLoop])
    | cons a rest ih =>
      intro r h
      rw [matchKnownLoop] at h
      split at h
      · exact ⟨a, by simp, by injection h with h; exact h.symm⟩
      · obtain ⟨b, hb, hr⟩ := ih r h
        exact ⟨b, by simp [hb], hr⟩
  constructor
  · rw [matchTruncatedAddress]
    cases truncFind t.data with
    | none => rfl
    | some q => rfl
  · intro r h
    rw [matchTruncatedAddress] at h
    cases hf : truncFind t.data with
    | none => rw [hf] at h; exact absurd h (by simp)
    | some q =>
      rw [hf] at h
      exact hloop _ _ known r h

/-- Witness for C10: a concrete resolution whose result is the normalization
of a known-list element. -/
theorem C10_matchTruncatedAddress_conservative_witness :
    ∃ a ∈ ["0xABCDEF012300000000000000000000000000789A"],
      "0xabcdef012300000000000000000000000000789a" = normalizeAddress a :=
  (C10_matchTruncatedAddress_conservative "0xabc...89a"
    ["0xABCDEF012300000000000000000000000000789A"]).2
    "0xabcdef012300000000000000000000000000789a" (by decide)

/-! ### The DOM model for the content script (`src/content/index.ts`)

A document is a rose tree of elements (tag, class list, attribute list) and
text nodes.  `scanPage` is embedded as a recursive walk that mirrors the
two-phase `TreeWalker` pass: acceptance of a text node is decided from the
*original* tree (tag of the parent, marker classes of the parent and its
ancestors), while the `isAlreadyProcessed` re-check inside
`processTruncatedAddresses` sees marks added earlier in the same pass.
Marks are only ever added to the direct parent of a processed text node, and
the walk proceeds in document order, so the current-mark state of the strict
ancestors of an element is constant while its children are processed; it is
threaded as the `addedAnc` flag, and the element's own added mark as the
`eAdded` accumulator. -/

/-- The value cached per address (`tagCache` entries). -/
structure TagData where
  name : String
  entity : Option String

/-- A DOM element: tag name, class list and attribute list. -/
structure Elem where
  tag : String
  classes : List String
  attrs : List (String × String)

/-- A DOM node. -/
inductive Node where
  | text (s : String)
  | elem (e : Elem) (children : List Node)

/-- `toLowerCase()` on an arbitrary string (used for tag names). -/
def strToLower (s : String) : String := ⟨s.data.map Char.toLower⟩

/-- The classes tested by `isAlreadyProcessed`: the idempotency marker plus
the extension's own injected UI classes. -/
def markerClasses : List String :=
  ["wt-processed", "wt-address-wrapper", "wt-address-text", "wt-indicator",
   "wt-control-panel", "wt-control-panel-bridge", "wt-panel-header", "wt-panel-address"]

/-- One step of `isAlreadyProcessed`: does this element carry a marker
class? (The ancestor walk is threaded through the scan as a flag.) -/
def hasMarkerClass (e : Elem) : Bool := e.classes.any (fun c => markerClasses.contains c)

/-- The tags whose text children the walker rejects. -/
def skipTags : List String := ["script", "style", "noscript", "textarea", "input"]

def isSkipTag (e : Elem) : Bool := skipTags.contains (strToLower e.tag)

/-- `element.getAttribute(name)`: `none` models `null`. -/
def getAttr (e : Elem) (name : String) : Option String :=
  (e.attrs.find? (fun q => q.1 = name)).map (fun q => q.2)

/-- JavaScript truthiness of an attribute value: `null` and `""` are falsy. -/
def attrTruthy : Option String → Option String
  | some v => if v.length = 0 then none else some v
  | none => none

/-- `classList.add('wt-processed')`: appends the class when absent. -/
def addProcessedClass (e : Elem) : Elem :=
  if e.classes.contains "wt-processed" then e
  else { e with classes := e.classes ++ ["wt-processed"] }

/-- `classList.remove('wt-processed')`. -/
def removeProcessedClass (e : Elem) : Elem :=
  { e with classes := e.classes.filter (fun c => decide (c ≠ "wt-processed")) }

/-- `createAddressElement` from `src/content/index.ts`: a
`span.wt-address-wrapper` carrying the address in `data-address`; with a
cached tag it shows the tag name and a 6-character address stub, otherwise a
`span.wt-address-text` with the original display text verbatim. -/
def createAddressElement (tagc : String → Option TagData)
    (address displayText : String) : Node :=
  match tagc (normalizeAddress address) with
  | some td =>
    Node.elem ⟨"span", ["wt-address-wrapper", "wt-has-tag"], [("data-address", address)]⟩
      [Node.elem ⟨"span", ["wt-tag-label"], []⟩ [Node.text td.name],
       Node.elem ⟨"span", ["wt-tag-short-address"], []⟩
         [Node.text (" (" ++ jsSlice address 0 6 ++ ")")]]
  | none =>
    Node.elem ⟨"span", ["wt-address-wrapper"], [("data-address", address)]⟩
      [Node.elem ⟨"span", ["wt-address-text"], []⟩ [Node.text displayText]]

/-- The fragment built by `processTextNode`: literal runs between matches
interleaved with address elements, plus the final tail run. -/
def buildRepl (tagc : String → Option TagData) (s : String) :
    Nat → List AddressMatch → List Node
  | lastIndex, [] =>
    if lastIndex < s.length then [Node.text (jsSliceFrom s lastIndex)] else []
  | lastIndex, m :: rest =>
    (if lastIndex < m.startIndex then [Node.text (jsSlice s lastIndex m.startIndex)]
     else []) ++
      (createAddressElement tagc m.address m.fullMatch :: buildRepl tagc s m.endIndex rest)

/-- The fragment built by `wrapWithAddressElement`. -/
def wrapNodes (tagc : String → Option TagData) (s : String) (start len : Nat)
    (fullAddress : String) : List Node :=
  (if 0 < start then [Node.text (jsSlice s 0 start)] else []) ++
    createAddressElement tagc fullAddress (jsSlice s start (start + len)) ::
      (if start + len < s.length then [Node.text (jsSliceFrom s (start + len))] else [])

/-- `textContent` of a node sequence. -/
def textContentList : List Node → String
  | [] => ""
  | Node.text s :: rest => s ++ textContentList rest
  | Node.elem _ cs :: rest => textContentList cs ++ textContentList rest
termination_by l => sizeOf l
decreasing_by all_goals (simp only [List.cons.sizeOf_spec, Node.elem.sizeOf_spec]; omega)

/-- The leftmost (non-global) match of `/0x[a-fA-F0-9]{40}/i` inside an
attribute value: the head of the global scan. -/
def firstFull (s : String) : Option String :=
  match scanFull s.data with
  | [] => none
  | q :: _ => some ⟨q.2⟩

/-- The hint attributes probed by `findAddressInAttributes`, in order. -/
def attrKeys : List String :=
  ["title", "data-address", "data-original-title", "data-clipboard-text", "data-bs-title"]

/-- The `attributesToCheck` loop of `findAddressInAttributes`. -/
def findInAttrKeys (e : Elem) : List String → Option String
  | [] => none
  | k :: ks =>
    match attrTruthy (getAttr e k) with
    | some v =>
      match firstFull v with
      | some m => some (normalizeAddress m)
      | none => findInAttrKeys e ks
    | none => findInAttrKeys e ks

/-- The `href` probe of `findAddressInAttributes`: skipped entirely when the
`href` contains `/tx/` or `/transaction/`. -/
def hrefCandidate (e : Elem) : Option String :=
  match attrTruthy (getAttr e "href") with
  | some h =>
    if containsStr h "/tx/" || containsStr h "/transaction/" then none
    else
      match firstFull h with
      | some m => some (normalizeAddress m)
      | none => none
  | none => none

/-- The `getAttributeNames()` loop of `findAddressInAttributes`: every
`data-*` attribute with a truthy value. -/
def findInDataAttrs : List (String × String) → Option String
  | [] => none
  | (k, v) :: rest =>
    if k.startsWith "data-" then
      if v.length = 0 then findInDataAttrs rest
      else
        match firstFull v with
        | some m => some (normalizeAddress m)
        | none => findInDataAttrs rest
    else findInDataAttrs rest

/-- One element's pass of `findAddressInAttributes`. -/
def findAddrInElem (e : Elem) : Option String :=
  match findInAttrKeys e attrKeys with
  | some a => some a
  | none =>
    match hrefCandidate e with
    | some a => some a
    | none => findInDataAttrs e.attrs

/-- `findAddressInAttributes`: walk outward from the parent element,
stopping at (and excluding) `document.body`; the chain argument is the list
of ancestors below the body, innermost first. -/
def findAddrInAttrs : List Elem → Option String
  | [] => none
  | e :: rest =>
    match findAddrInElem e with
    | some a => some a
    | none => findAddrInAttrs rest

/-- Anchored match (after `0x`) of the truncated branch
`[a-fA-F0-9]{2,10}\.{2,3}[a-fA-F0-9]{2,10}`, returning the matched length
after the `0x`.  As with `truncParseAfter0x`, greedy backtracking forces the
prefix run length into 2..10 exactly and the dot run length into 2..3
exactly, while the suffix takes at most 10 of the final run. -/
def trunc210At (rest : List Char) : Option Nat :=
  let r := rest.takeWhile isHexDigit
  if 2 ≤ r.length ∧ r.length ≤ 10 then
    let r1 := rest.dropWhile isHexDigit
    let d := r1.takeWhile (fun c => decide (c = '.'))
    if d.length = 2 ∨ d.length = 3 then
      let s := (r1.dropWhile (fun c => decide (c = '.'))).takeWhile isHexDigit
      if 2 ≤ s.length then some (r.length + d.length + min s.length 10) else none
    else none
  else none

/-- Anchored match (after `0x`) of the alternation
`0x[a-fA-F0-9]{2,10}\.{2,3}[a-fA-F0-9]{2,10}|0x[a-fA-F0-9]{4,8}` used by the
attribute fallback path: the truncated branch is preferred, otherwise the
bare short branch takes at most 8 of the hex run when it has at least 4. -/
def truncOrShortAt (rest : List Char) : Option Nat :=
  match trunc210At rest with
  | some n => some n
  | none =>
    let r := rest.takeWhile isHexDigit
    if 4 ≤ r.length then some (min r.length 8) else none

/-- Leftmost match of the attribute-path regex, as `(index, length)` over
the whole string. -/
def findTruncOrShort : List Char → Option (Nat × Nat)
  | [] => none
  | c1 :: rest =>
    match rest with
    | [] => none
    | c2 :: rest2 =>
      if c1 = '0' ∧ (c2 = 'x' ∨ c2 = 'X') then
        match truncOrShortAt rest2 with
        | some n => some (0, n + 2)
        | none => (findTruncOrShort rest).map (fun q => (q.1 + 1, q.2))
      else (findTruncOrShort rest).map (fun q => (q.1 + 1, q.2))

/-- The `truncatedRegex.exec` loop of `processTruncatedAddresses`: find the
next truncated-shape candidate left to right, hand the matched substring to
`matchTruncatedAddress`, and on rejection resume after the candidate
(`lastIndex` semantics of the `g` flag). -/
def truncLoop (known : List String) (l : List Char) : Option (Nat × Nat × String) :=
  match l with
  | [] => none
  | [_] => none
  | c1 :: c2 :: rest2 =>
    if c1 = '0' ∧ (c2 = 'x' ∨ c2 = 'X') then
      match trunc210At rest2 with
      | some n =>
        match matchTruncatedAddress ⟨(c1 :: c2 :: rest2).take (n + 2)⟩ known with
        | some addr => some (0, n + 2, addr)
        | none =>
          (truncLoop known ((c1 :: c2 :: rest2).drop (n + 2))).map
            (fun q => (q.1 + (n + 2), q.2.1, q.2.2))
      | none => (truncLoop known (c2 :: rest2)).map (fun q => (q.1 + 1, q.2.1, q.2.2))
    else (truncLoop known (c2 :: rest2)).map (fun q => (q.1 + 1, q.2.1, q.2.2))
termination_by l.length
decreasing_by
  · simp only [List.length_drop, List.length_cons]; omega
  · simp only [List.length_cons]; omega
  · simp only [List.length_cons]; omega

/-- Anchored match of `\(0x[a-fA-F0-9]{3,6}\)` after the opening
parenthesis: `0x`, a hex run of exactly 3..6 (greedy backtracking: a longer
run leaves a hex digit where `)` is required), then `)`.  Returns the hex
run length. -/
def shortAt (rest : List Char) : Option Nat :=
  match rest with
  | c1 :: c2 :: rest2 =>
    if c1 = '0' ∧ (c2 = 'x' ∨ c2 = 'X') then
      let r := rest2.takeWhile isHexDigit
      if 3 ≤ r.length ∧ r.length ≤ 6 then
        match rest2.drop r.length with
        | ')' :: _ => some r.length
        | _ => none
      else none
    else none
  | _ => none

/-- The `shortRegex.exec` loop of `processTruncatedAddresses`, resolving the
matched substring with `matchShortAddress` (a parameter: its source is not
part of the provided files). -/
def shortLoop (matchShort : String → List String → Option String)
    (known : List String) (l : List Char) : Option (Nat × Nat × String) :=
  match l with
  | [] => none
  | c0 :: rest =>
    if c0 = '(' then
      match shortAt rest with
      | some rlen =>
        match matchShort ⟨(c0 :: rest).take (rlen + 4)⟩ known with
        | some addr => some (0, rlen + 4, addr)
        | none =>
          (shortLoop matchShort known ((c0 :: rest).drop (rlen + 4))).map
            (fun q => (q.1 + (rlen + 4), q.2.1, q.2.2))
      | none => (shortLoop matchShort known rest).map (fun q => (q.1 + 1, q.2.1, q.2.2))
    else (shortLoop matchShort known rest).map (fun q => (q.1 + 1, q.2.1, q.2.2))
termination_by l.length
decreasing_by
  · simp only [List.length_drop, List.length_cons]; omega
  · simp only [List.length_cons]; omega
  · simp only [List.length_cons]; omega

/-- `parent.closest('a')?.getAttribute('href') || ''` over the ancestor
chain. -/
def closestHref (chain : List Elem) : String :=
  match chain.find? (fun e => strToLower e.tag = "a") with
  | some e =>
    match getAttr e "href" with
    | some h => h
    | none => ""
  | none => ""

/-- The decision taken by `processTruncatedAddresses` (after its
`isAlreadyProcessed` re-check, which the caller performs): `none` to leave
the text node untouched, or `(start, length, address)` to wrap.  The three
stages in source order: the transaction-link guard on the closest anchor,
the attribute path (full address in a hint attribute plus a literal `0x` in
the text), then the truncated and short fallback loops. -/
def processTruncated (known : List String)
    (matchShort : String → List String → Option String)
    (chain : List Elem) (s : String) : Option (Nat × Nat × String) :=
  let href := closestHref chain
  if containsStr href "/tx/" || containsStr href "/transaction/" then none
  else
    let attrPath :=
      match findAddrInAttrs chain, containsStr s "0x" with
      | some fa, true =>
        match findTruncOrShort s.data with
        | some q => some (q.1, q.2, fa)
        | none => none
      | _, _ => none
    match attrPath with
    | some r => some r
    | none =>
      match truncLoop known s.data with
      | some r => some r
      | none => shortLoop matchShort known s.data

/-- Processing of one accepted text node (`processTextNode`): with full
matches, build the replacement fragment and mark the parent; with none, run
the truncated path when known addresses exist and the parent is still
unmarked.  Returns the replacement nodes and whether the parent was
marked. -/
def processTextChild (known : List String) (tagc : String → Option TagData)
    (matchShort : String → List String → Option String)
    (chain : List Elem) (markedNow : Bool) (s : String) : List Node × Bool :=
  match findAddressesInText s with
  | [] =>
    if known.isEmpty then ([Node.text s], false)
    else if markedNow then ([Node.text s], false)
    else
      match processTruncated known matchShort chain s with
      | some (i, len, addr) => (wrapNodes tagc s i len addr, true)
      | none => ([Node.text s], false)
  | m :: ms => (buildRepl tagc s 0 (m :: ms), true)

/-- The walk of `scanPage` over the children of one element.  Arguments:
the ancestor chain below `document.body` (innermost first, for
`closest('a')` and `findAddressInAttributes`), whether the parent's tag is
in the skip list, whether the parent or an ancestor carried a marker class
in the original tree (walker acceptance), whether a strict ancestor was
marked earlier in this pass, the children, and the parent's own
added-mark accumulator.  Returns the new children and the final mark
accumulator. -/
def scanChildren (known : List String) (tagc : String → Option TagData)
    (matchShort : String → List String → Option String) :
    List Elem → Bool → Bool → Bool → List Node → Bool → List Node × Bool
  | _, _, _, _, [], eAdded => ([], eAdded)
  | chain, tagSkip, origMarked, addedAnc, Node.text s :: rest, eAdded =>
    if tagSkip || origMarked then
      let pr := scanChildren known tagc matchShort chain tagSkip origMarked addedAnc rest eAdded
      (Node.text s :: pr.1, pr.2)
    else
      let tn := processTextChild known tagc matchShort chain
        (origMarked || addedAnc || eAdded) s
      let pr := scanChildren known tagc matchShort chain tagSkip origMarked addedAnc rest
        (eAdded || tn.2)
      (tn.1 ++ pr.1, pr.2)
  | chain, tagSkip, origMarked, addedAnc, Node.elem f fcs :: rest, eAdded =>
    let fr := scanChildren known tagc matchShort (f :: chain) (isSkipTag f)
      (origMarked || hasMarkerClass f) (addedAnc || eAdded) fcs false
    let f2 := if fr.2 then addProcessedClass f else f
    let pr := scanChildren known tagc matchShort chain tagSkip origMarked addedAnc rest eAdded
    (Node.elem f2 fr.1 :: pr.1, pr.2)
termination_by _ _ _ _ cs _ => sizeOf cs
decreasing_by
  all_goals (simp only [List.cons.sizeOf_spec, Node.elem.sizeOf_spec]; omega)

/-- `scanPage` on the whole document (rooted at `document.body`; anything
above the body is assumed unmarked, and `findAddressInAttributes` stops
before the body, so the chain starts empty). -/
def scanPage (known : List String) (tagc : String → Option TagData)
    (matchShort : String → List String → Option String) : Node → Node
  | Node.text s => Node.text s
  | Node.elem body cs =>
    let pr := scanChildren known tagc matchShort [] (isSkipTag body)
      (hasMarkerClass body) false cs false
    Node.elem (if pr.2 then addProcessedClass body else body) pr.1

/-- The restoration pass of the `TAGS_UPDATED` handler on a node list:
remove every `wt-processed` marker and replace every
`.wt-address-wrapper` element (outermost first, as in document order) by a
text node holding its `data-address` attribute. -/
def restoreList : List Node → List Node
  | [] => []
  | Node.text s :: rest => Node.text s :: restoreList rest
  | Node.elem e cs :: rest =>
    (if e.classes.contains "wt-address-wrapper" then
      Node.text ((getAttr e "data-address").getD "")
    else Node.elem (removeProcessedClass e) (restoreList cs)) :: restoreList rest
termination_by l => sizeOf l
decreasing_by all_goals (simp only [List.cons.sizeOf_spec, Node.elem.sizeOf_spec]; omega)

/-- The restoration pass on the document root. -/
def restoreDoc : Node → Node
  | Node.text s => Node.text s
  | Node.elem e cs =>
    if e.classes.contains "wt-address-wrapper" then
      Node.text ((getAttr e "data-address").getD "")
    else Node.elem (removeProcessedClass e) (restoreList cs)

/-- The `TAGS_UPDATED` message handler: refresh the caches, clear all
markers, unwrap all injected address elements, then rescan. -/
def handleTagsUpdated (known : List String) (tagc : String → Option TagData)
    (matchShort : String → List String → Option String) (d : Node) : Node :=
  scanPage known tagc matchShort (restoreDoc d)

/-! ### Lossless replacement (C4) -/

theorem string_mk_append (a b : List Char) : (⟨a⟩ : String) ++ (⟨b⟩ : String) = ⟨a ++ b⟩ :=
  rfl

theorem string_append_empty (s : String) : s ++ "" = s := by
  cases s with
  | mk d => exact congrArg String.mk (List.append_nil d)

theorem string_empty_append (s : String) : "" ++ s = s := by
  cases s with
  | mk d => rfl

theorem textContentList_append (xs ys : List Node) :
    textContentList (xs ++ ys) = textContentList xs ++ textContentList ys := by
  induction xs with
  | nil => rw [List.nil_append, textContentList, string_empty_append]
  | cons n rest ih =>
    cases n with
    | text s =>
      rw [List.cons_append, textContentList, textContentList, ih, String.append_assoc]
    | elem e cs =>
      rw [List.cons_append, textContentList, textContentList, ih, String.append_assoc]

/-- With no cached tag, the injected address element shows exactly the
display text. -/
theorem textContent_createAddressElement_untagged (tagc : String → Option TagData)
    (addr disp : String) (h : tagc (normalizeAddress addr) = none) :
    textContentList [createAddressElement tagc addr disp] = disp := by
  rw [createAddressElement, h]
  simp only [textContentList, string_append_empty]

/-- Well-formedness of a match list against a source text, as produced by
the scanner: each match sits at or after the previous end, inside the text,
and carries the exact slice as `fullMatch`. -/
def okMatches (l : List Char) : Nat → List AddressMatch → Prop
  | _, [] => True
  | li, m :: rest =>
    li ≤ m.startIndex ∧ m.startIndex ≤ m.endIndex ∧ m.endIndex ≤ l.length ∧
    m.fullMatch.data = (l.take m.endIndex).drop m.startIndex ∧
    okMatches l m.endIndex rest

theorem slice_concat {l : List Char} {a b c : Nat} (hab : a ≤ b) (hbc : b ≤ c) :
    (l.take b).drop a ++ (l.take c).drop b = (l.take c).drop a := by
  rw [List.drop_take, List.drop_take, List.drop_take]
  have hdb : l.drop b = (l.drop a).drop (b - a) := by
    rw [List.drop_drop]
    congr 1
    omega
  rw [hdb, ← List.take_add, show b - a + (c - b) = c - a from by omega]

theorem buildRepl_textContent (tagc : String → Option TagData) (s : String) :
    ∀ (ms : List AddressMatch) (li : Nat),
    okMatches s.data li ms →
    (∀ m ∈ ms, tagc (normalizeAddress m.address) = none) →
    textContentList (buildRepl tagc s li ms) = ⟨s.data.drop li⟩ := by
  intro ms
  induction ms with
  | nil =>
    intro li _ _
    rw [buildRepl]
    by_cases hlt : li < s.length
    · rw [if_pos hlt, textContentList, textContentList, string_append_empty, jsSliceFrom]
    · have hds : s.data.length ≤ li := by
        have hsl : s.length = s.data.length := rfl
        omega
      rw [if_neg hlt, textContentList, List.drop_eq_nil_of_le hds]
  | cons m rest ih =>
    intro li hok hnone
    obtain ⟨h1, h2, h3, h4, h5⟩ := hok
    rw [buildRepl, textContentList_append]
    have hhead : textContentList
        (if li < m.startIndex then [Node.text (jsSlice s li m.startIndex)] else []) =
        (⟨(s.data.take m.startIndex).drop li⟩ : String) := by
      by_cases hlt : li < m.startIndex
      · rw [if_pos hlt, textContentList, textContentList, string_append_empty, jsSlice]
      · rw [if_neg hlt, textContentList]
        have hli : li = m.startIndex := by omega
        subst hli
        rw [List.drop_take, Nat.sub_self, List.take_zero]
    have htail : textContentList
        (createAddressElement tagc m.address m.fullMatch :: buildRepl tagc s m.endIndex rest) =
        m.fullMatch ++ (⟨s.data.drop m.endIndex⟩ : String) := by
      have hsplit : createAddressElement tagc m.address m.fullMatch ::
          buildRepl tagc s m.endIndex rest =
          [createAddressElement tagc m.address m.fullMatch] ++
            buildRepl tagc s m.endIndex rest := rfl
      rw [hsplit, textContentList_append,
        textContent_createAddressElement_untagged tagc _ _ (hnone m (by simp)),
        ih m.endIndex h5 (fun q hq => hnone q (by simp [hq]))]
    rw [hhead, htail]
    have hfm : m.fullMatch = (⟨(s.data.take m.endIndex).drop m.startIndex⟩ : String) :=
      String.ext h4
    have hfin : (s.data.take m.endIndex).drop li ++ s.data.drop m.endIndex =
        s.data.drop li := by
      have h6 := slice_concat (l := s.data) (a := li) (b := m.endIndex)
        (c := s.data.length) (le_trans h1 h2) h3
      rw [List.take_length] at h6
      exact h6
    rw [hfm, string_mk_append, string_mk_append, ← List.append_assoc,
      slice_concat h1 h2, hfin]

theorem okMatches_of_scan (l : List Char) :
    ∀ (ps : List (Nat × List Char)) (li : Nat),
    (∀ p ∈ ps, matchFull40 (l.drop p.1) = some p.2) →
    List.Chain' (fun p q : Nat × List Char => p.1 + 42 ≤ q.1) ps →
    (∀ q ∈ ps.head?, li ≤ q.1) →
    okMatches l li (ps.map (fun p =>
      ({ address := normalizeAddress ⟨p.2⟩
         fullMatch := ⟨p.2⟩
         startIndex := p.1
         endIndex := p.1 + p.2.length
         isTruncated := false } : AddressMatch))) := by
  intro ps
  induction ps with
  | nil => intro li _ _ _; exact trivial
  | cons p rest ih =>
    intro li hmem hchain hhead
    have hp := hmem p (by simp)
    obtain ⟨hslice, hlen⟩ := matchFull40_eq hp
    have h42 : p.2.length = 42 := matchFull40_length hp
    have hbound : p.1 + 42 ≤ l.length := by
      rw [List.length_drop] at hlen
      omega
    refine ⟨?_, ?_, ?_, ?_, ?_⟩
    · show li ≤ p.1
      exact hhead p rfl
    · show p.1 ≤ p.1 + p.2.length
      omega
    · show p.1 + p.2.length ≤ l.length
      omega
    · show p.2 = (l.take (p.1 + p.2.length)).drop p.1
      rw [h42, List.drop_take, show p.1 + 42 - p.1 = 42 from by omega]
      exact hslice
    · show okMatches l (p.1 + p.2.length) _
      rw [h42]
      refine ih (p.1 + 42) (fun q hq => hmem q (by simp [hq])) (List.Chain'.tail hchain) ?_
      intro q hq
      exact (List.chain'_cons'.mp hchain).1 q hq

theorem findAddressesInText_ok (s : String) :
    okMatches s.data 0 (findAddressesInText s) := by
  rw [findAddressesInText]
  exact okMatches_of_scan s.data (scanFull s.data) 0
    (fun p hp => scanFull_mem hp) (scanFull_chain s.data) (fun q _ => Nat.zero_le _)

/-- **C4.** Lossless replacement when no tag is known: for every text node
whose matched addresses all have no entry in the tag cache, the
concatenation of the text content of the replacement nodes produced by
`processTextNode` (literal runs plus address elements showing the original
display text verbatim) equals the original text character for character. -/
theorem C4_processTextNode_lossless (tagc : String → Option TagData) (s : String)
    (h : ∀ m ∈ findAddressesInText s, tagc (normalizeAddress m.address) = none) :
    textContentList (buildRepl tagc s 0 (findAddressesInText s)) = s := by
  rw [buildRepl_textContent tagc s (findAddressesInText s) 0 (findAddressesInText_ok s) h]
  rw [List.drop_zero]

/-- Witness for C4: an empty tag cache leaves the page text unchanged on a
text node containing one full address. -/
theorem C4_processTextNode_lossless_witness :
    textContentList (buildRepl (fun _ => none)
      "pay 0xAbCd567890abcdefABCDEF1234567890abcdefAB thanks" 0
      (findAddressesInText "pay 0xAbCd567890abcdefABCDEF1234567890abcdefAB thanks")) =
      "pay 0xAbCd567890abcdefABCDEF1234567890abcdefAB thanks" :=
  C4_processTextNode_lossless (fun _ => none)
    "pay 0xAbCd567890abcdefABCDEF1234567890abcdefAB thanks" (fun _ _ => rfl)

/-! ### Transaction-link exclusion (C9) -/

/-- Removing the `href` attribute from an element. -/
def stripHref (e : Elem) : Elem :=
  { e with attrs := e.attrs.filter (fun q => decide (q.1 ≠ "href")) }

theorem find?_filter_href_ne (k : String) (hk : ¬ k = "href") :
    ∀ (l : List (String × String)),
    (l.filter (fun q => decide (q.1 ≠ "href"))).find? (fun q => decide (q.1 = k)) =
      l.find? (fun q => decide (q.1 = k)) := by
  intro l
  induction l with
  | nil => rfl
  | cons a rest ih =>
    rw [List.filter_cons]
    by_cases ha : a.1 = "href"
    · rw [if_neg (by simp [ha]), List.find?_cons, show (decide (a.1 = k)) = false from by
        simp [ha]; intro hc; exact absurd hc.symm hk]
      exact ih
    · rw [if_pos (by simp [ha]), List.find?_cons, List.find?_cons]
      cases hak : decide (a.1 = k) with
      | true => rfl
      | false => exact ih

theorem getAttr_stripHref (e : Elem) (k : String) (hk : ¬ k = "href") :
    getAttr (stripHref e) k = getAttr e k := by
  rw [getAttr, getAttr, stripHref]
  rw [find?_filter_href_ne k hk]

theorem getAttr_stripHref_href (e : Elem) : getAttr (stripHref e) "href" = none := by
  rw [getAttr, stripHref]
  have : ∀ (l : List (String × String)),
      (l.filter (fun q => decide (q.1 ≠ "href"))).find? (fun q => decide (q.1 = "href")) =
        none := by
    intro l
    induction l with
    | nil => rfl
    | cons a rest ih =>
      rw [List.filter_cons]
      by_cases ha : a.1 = "href"
      · rw [if_neg (by simp [ha])]
        exact ih
      · rw [if_pos (by simp [ha]), List.find?_cons,
          show (decide (a.1 = "href")) = false from by simp [ha]]
        exact ih
  rw [this]
  rfl

theorem findInAttrKeys_stripHref (e : Elem) :
    ∀ (ks : List String), (∀ k ∈ ks, ¬ k = "href") →
    findInAttrKeys (stripHref e) ks = findInAttrKeys e ks := by
  intro ks
  induction ks with
  | nil => intro _; rfl
  | cons k rest ih =>
    intro hks
    rw [findInAttrKeys, findInAttrKeys, getAttr_stripHref e k (hks k (by simp))]
    cases attrTruthy (getAttr e k) with
    | none =>
      simp only []
      exact ih (fun q hq => hks q (by simp [hq]))
    | some v =>
      simp only []
      cases firstFull v with
      | none => exact ih (fun q hq => hks q (by simp [hq]))
      | some m => rfl

theorem findInDataAttrs_stripHref (l : List (String × String)) :
    findInDataAttrs (l.filter (fun q => decide (q.1 ≠ "href"))) = findInDataAttrs l := by
  induction l with
  | nil => rfl
  | cons a rest ih =>
    rw [List.filter_cons]
    by_cases ha : a.1 = "href"
    · rw [if_neg (by simp [ha])]
      rw [ih]
      cases a with
      | mk k v =>
        simp only at ha
        subst ha
        rw [findInDataAttrs, if_neg (by decide)]
    · rw [if_pos (by simp [ha])]
      cases a with
      | mk k v =>
        rw [findInDataAttrs, findInDataAttrs]
        cases k.startsWith "data-" with
        | false =>
          rw [if_neg (by simp), if_neg (by simp)]
          exact ih
        | true =>
          rw [if_pos rfl, if_pos rfl]
          by_cases hv : v.length = 0
          · rw [if_pos hv, if_pos hv]; exact ih
          · rw [if_neg hv, if_neg hv]
            cases firstFull v with
            | none => exact ih
            | some m => rfl

/-- **C9.** For every ancestor chain in which every present `href` contains
`/tx/` or `/transaction/`, the attribute fallback never derives an address
from an `href`: the search behaves exactly as if the `href` attributes were
absent. -/
theorem C9_findAddressInAttributes_tx_excluded (chain : List Elem)
    (h : ∀ e ∈ chain, ∀ hv, getAttr e "href" = some hv →
      (containsStr hv "/tx/" || containsStr hv "/transaction/") = true) :
    findAddrInAttrs chain = findAddrInAttrs (chain.map stripHref) := by
  induction chain with
  | nil => rfl
  | cons e rest ih =>
    rw [List.map_cons, findAddrInAttrs, findAddrInAttrs]
    have hel : findAddrInElem (stripHref e) = findAddrInElem e := by
      rw [findAddrInElem, findAddrInElem]
      rw [findInAttrKeys_stripHref e attrKeys
        (show ∀ k ∈ attrKeys, ¬ k = "href" by decide)]
      have hhrefS : hrefCandidate (stripHref e) = none := by
        rw [hrefCandidate, getAttr_stripHref_href]
        rfl
      have hhrefO : hrefCandidate e = none := by
        rw [hrefCandidate]
        cases hg : getAttr e "href" with
        | none => rfl
        | some hv =>
          by_cases hl : hv.length = 0
          · rw [attrTruthy, if_pos hl]
          · rw [attrTruthy, if_neg hl]
            simp only []
            rw [if_pos (h e (by simp) hv hg)]
      rw [hhrefS, hhrefO]
      cases findInAttrKeys e attrKeys with
      | none =>
        show findInDataAttrs (stripHref e).attrs = findInDataAttrs e.attrs
        exact findInDataAttrs_stripHref e.attrs
      | some a => rfl
    rw [hel]
    cases findAddrInElem e with
    | none => exact ih (fun q hq => h q (by simp [hq]))
    | some a => rfl

/-- Witness for C9 on a single anchor whose `href` is a transaction link
carrying 40 hex digits: the attribute search ignores it entirely. -/
theorem C9_findAddressInAttributes_tx_excluded_witness :
    (findAddrInAttrs [⟨"a", [],
        [("href", "/tx/0xdeadbeefdeadbeefdeadbeefdeadbeefdeadbeef")]⟩] =
      findAddrInAttrs ([⟨"a", [],
        [("href", "/tx/0xdeadbeefdeadbeefdeadbeefdeadbeefdeadbeef")]⟩].map stripHref)) ∧
    findAddrInAttrs [⟨"a", [],
        [("href", "/tx/0xdeadbeefdeadbeefdeadbeefdeadbeefdeadbeef")]⟩] = none := by
  constructor
  · apply C9_findAddressInAttributes_tx_excluded
    intro e he hv hget
    simp only [List.mem_singleton] at he
    subst he
    have hv2 : hv = "/tx/0xdeadbeefdeadbeefdeadbeefdeadbeefdeadbeef" := by
      rw [show getAttr (⟨"a", [],
        [("href", "/tx/0xdeadbeefdeadbeefdeadbeefdeadbeefdeadbeef")]⟩ : Elem) "href" =
        some "/tx/0xdeadbeefdeadbeefdeadbeefdeadbeefdeadbeef" from rfl] at hget
      injection hget with hg
      exact hg.symm
    subst hv2
    decide
  · decide

/-! ### Cache-invalidation round trip (C5) -/

/-- Structural induction principle for node lists (nested recursion into
element children). -/
theorem nodeList_ind {P : List Node → Prop} (h1 : P [])
    (h2 : ∀ s rest, P rest → P (Node.text s :: rest))
    (h3 : ∀ e fcs rest, P fcs → P rest → P (Node.elem e fcs :: rest)) :
    ∀ l, P l := by
  have key : ∀ (n : Nat) (l : List Node), sizeOf l ≤ n → P l := by
    intro n
    induction n with
    | zero =>
      intro l hl
      exfalso
      cases l with
      | nil => simp only [List.nil.sizeOf_spec] at hl; omega
      | cons a r => simp only [List.cons.sizeOf_spec] at hl; omega
    | succ n ih =>
      intro l hl
      match l with
      | [] => exact h1
      | Node.text s :: rest =>
        refine h2 s rest (ih rest ?_)
        simp only [List.cons.sizeOf_spec, Node.text.sizeOf_spec] at hl
        omega
      | Node.elem e fcs :: rest =>
        refine h3 e fcs rest (ih fcs ?_) (ih rest ?_)
        · simp only [List.cons.sizeOf_spec, Node.elem.sizeOf_spec] at hl
          omega
        · simp only [List.cons.sizeOf_spec, Node.elem.sizeOf_spec] at hl
          omega
  intro l
  exact key (sizeOf l) l le_rfl

/-- No element of the tree carries the idempotency marker or is an injected
address wrapper. -/
def noMarkersList : List Node → Bool
  | [] => true
  | Node.text _ :: rest => noMarkersList rest
  | Node.elem e cs :: rest =>
    !(e.classes.contains "wt-processed") && !(e.classes.contains "wt-address-wrapper") &&
      noMarkersList cs && noMarkersList rest
termination_by l => sizeOf l
decreasing_by all_goals (simp only [List.cons.sizeOf_spec, Node.elem.sizeOf_spec]; omega)

def noMarkersDoc (n : Node) : Bool := noMarkersList [n]

theorem contains_filter_ne (l : List String) (x : String) :
    (l.filter (fun c => decide (c ≠ x))).contains x = false := by
  induction l with
  | nil => rfl
  | cons a rest ih =>
    rw [List.filter_cons]
    by_cases ha : a = x
    · rw [if_neg (by simp [ha])]
      exact ih
    · rw [if_pos (by simp [ha]), List.contains_cons, ih,
        show (x == a) = false from beq_eq_false_iff_ne.mpr (fun h => ha h.symm)]
      rfl

theorem contains_filter_of_not (l : List String) (x : String) (p : String → Bool)
    (h : l.contains x = false) : (l.filter p).contains x = false := by
  induction l with
  | nil => rfl
  | cons a rest ih =>
    rw [List.contains_cons] at h
    have ha : (x == a) = false := by
      cases hxa : (x == a) with
      | false => rfl
      | true => rw [hxa] at h; simp at h
    have hr : rest.contains x = false := by
      rw [ha] at h
      simpa using h
    rw [List.filter_cons]
    by_cases hp : p a = true
    · rw [if_pos hp, List.contains_cons, ha, ih hr]
      rfl
    · rw [if_neg hp]
      exact ih hr

theorem restoreList_single (d : Node) : restoreList [d] = [restoreDoc d] := by
  cases d with
  | text s => rw [restoreList, restoreList, restoreDoc]
  | elem e cs => rw [restoreList, restoreList, restoreDoc]

theorem restoreList_noMarkers : ∀ l, noMarkersList (restoreList l) = true := by
  apply nodeList_ind
  · rw [restoreList, noMarkersList]
  · intro s rest ih
    rw [restoreList, noMarkersList]
    exact ih
  · intro e fcs rest ihf ihr
    rw [restoreList]
    by_cases hw : e.classes.contains "wt-address-wrapper" = true
    · rw [if_pos hw, noMarkersList]
      exact ihr
    · rw [if_neg hw, noMarkersList]
      have h1 : (removeProcessedClass e).classes.contains "wt-processed" = false := by
        rw [removeProcessedClass]
        exact contains_filter_ne e.classes "wt-processed"
      have h2 : (removeProcessedClass e).classes.contains "wt-address-wrapper" = false := by
        rw [removeProcessedClass]
        exact contains_filter_of_not e.classes "wt-address-wrapper" _
          (Bool.eq_false_iff.mpr hw)
      rw [h1, h2, ihf, ihr]
      rfl

/-- **C5.** After a `TAGS_UPDATED` event the handler (a) rescans exactly as
a fresh scan over the restored document, (b) restores every injected
address element to a plain text node holding the address used to create it,
and (c) the restored document carries no idempotency marker and no injected
wrapper anywhere. -/
theorem C5_tagsUpdated_round_trip (known : List String)
    (tagc tagc2 : String → Option TagData)
    (ms : String → List String → Option String) (d : Node) (addr disp : String) :
    handleTagsUpdated known tagc ms d = scanPage known tagc ms (restoreDoc d) ∧
    restoreDoc (createAddressElement tagc2 addr disp) = Node.text addr ∧
    noMarkersDoc (restoreDoc d) = true := by
  refine ⟨rfl, ?_, ?_⟩
  · rw [createAddressElement]
    cases tagc2 (normalizeAddress addr) with
    | some td => rfl
    | none => rfl
  · rw [noMarkersDoc, ← restoreList_single]
    exact restoreList_noMarkers [d]

/-! ### Arkham import: entity stickiness (C8) -/

/-- `Tag` from `src/types.ts`. -/
structure Tag where
  address : String
  name : String
  entity : Option String
  source : String

/-- One entry of the `/user/entities` response that `fetchArkhamLabels`
consumes: the entity name and its EVM addresses. -/
structure ArkEntity where
  name : String
  evm : List String

/-- One entry of the `/user/labels` response. -/
structure ArkLabel where
  chainType : String
  address : String
  name : String

/-- JavaScript `Map.set`: replace in place when the key exists (insertion
order preserved), append otherwise. -/
def mapSet (m : List (String × Tag)) (k : String) (v : Tag) : List (String × Tag) :=
  if m.any (fun q => decide (q.1 = k)) then
    m.map (fun q => if q.1 = k then (k, v) else q)
  else m ++ [(k, v)]

/-- JavaScript `Map.get`. -/
def mapGet (m : List (String × Tag)) (k : String) : Option Tag :=
  (m.find? (fun q => decide (q.1 = k))).map (fun q => q.2)

/-- `fetchArkhamLabels` from `src/content/index.ts` (the two dedupe loops;
network plumbing and the empty-result throw are outside the data path):
entity entries are inserted first with `name = entity = entity.name`; label
entries then override the name while keeping the previously attached entity
when one exists (`entity: existing?.entity`). -/
def fetchArkhamLabels (entities : List ArkEntity) (labels : List ArkLabel) : List Tag :=
  let m1 := entities.foldl (fun m ent =>
    ent.evm.foldl (fun m2 addr =>
      mapSet m2 (strToLower addr)
        { address := strToLower addr, name := ent.name, entity := some ent.name,
          source := "arkham" }) m) []
  let m2 := labels.foldl (fun m item =>
    if item.chainType = "evm" then
      mapSet m (strToLower item.address)
        { address := strToLower item.address, name := item.name,
          entity := (mapGet m (strToLower item.address)).bind (fun t => t.entity),
          source := "arkham" }
    else m) m1
  m2.map (fun q => q.2)

/-- **C8.** Entity stickiness: an address first covered by an entity (record
`{name := ent, entity := ent}`), then relabelled by entity-less label
records, resolves to the *latest* label name with the *original* entity
preserved.  In particular the records `{name := n1, entity := ent}` (the
state after the first label) followed by the entity-less `{name := n2}`
resolve to `{name := n2, entity := ent}`. -/
theorem C8_fetchArkhamLabels_entity_sticky (addr ent n1 n2 : String) :
    fetchArkhamLabels [⟨ent, [addr]⟩] [⟨"evm", addr, n1⟩] =
      [{ address := strToLower addr, name := n1, entity := some ent,
         source := "arkham" }] ∧
    fetchArkhamLabels [⟨ent, [addr]⟩] [⟨"evm", addr, n1⟩, ⟨"evm", addr, n2⟩] =
      [{ address := strToLower addr, name := n2, entity := some ent,
         source := "arkham" }] := by
  constructor
  · simp [fetchArkhamLabels, mapSet, mapGet]
  · simp [fetchArkhamLabels, mapSet, mapGet]

/-! ### The hover panel timers (C6, C7)

The module-level state of `src/content/index.ts` (`controlPanel`,
`controlPanelBridge`, `hideTimeout`, `showTimeout`, `currentPanelAddress`,
`pendingShowAddress`) plus the browser's timer queue (`pending`, with fresh
ids from `nextId`): `setTimeout` enqueues, `clearTimeout` removes by id, and
a timer can only fire while still enqueued.  `panels`/`bridges` model the
panel and bridge elements attached to the document (`appendChild` /
`remove`). -/

inductive TimerPayload where
  | showPanel (addr : String)
  | hidePanel
deriving DecidableEq, Repr

structure HoverState where
  panels : List String
  bridges : Nat
  controlPanel : Option String
  controlPanelBridge : Bool
  hideTimeout : Option Nat
  showTimeout : Option Nat
  currentPanelAddress : Option String
  pendingShowAddress : Option String
  pending : List (Nat × TimerPayload)
  nextId : Nat
deriving DecidableEq, Repr

def initState : HoverState :=
  { panels := [], bridges := 0, controlPanel := none, controlPanelBridge := false,
    hideTimeout := none, showTimeout := none, currentPanelAddress := none,
    pendingShowAddress := none, pending := [], nextId := 0 }

/-- `clearTimeout(id)`: the timer can no longer fire. -/
def removeTimer (pending : List (Nat × TimerPayload)) (id : Nat) :
    List (Nat × TimerPayload) :=
  pending.filter (fun q => decide (q.1 ≠ id))

/-- `if (hideTimeout) { clearTimeout(hideTimeout); hideTimeout = null; }` -/
def clearHideTimeout (s : HoverState) : HoverState :=
  match s.hideTimeout with
  | some id => { s with pending := removeTimer s.pending id, hideTimeout := none }
  | none => s

/-- `if (showTimeout) { clearTimeout(showTimeout); showTimeout = null; }` -/
def clearShowTimeout (s : HoverState) : HoverState :=
  match s.showTimeout with
  | some id => { s with pending := removeTimer s.pending id, showTimeout := none }
  | none => s

/-- `showControlPanel`: same-address short-circuit only cancels a pending
hide; otherwise cancel both timers, record the pending address and start a
fresh 300 ms show timer. -/
def showControlPanel (s : HoverState) (addr : String) : HoverState :=
  if s.currentPanelAddress = some addr ∧ s.controlPanel.isSome then
    clearHideTimeout s
  else
    let s2 := clearShowTimeout (clearHideTimeout s)
    { s2 with
      pendingShowAddress := some addr,
      pending := s2.pending ++ [(s2.nextId, TimerPayload.showPanel addr)],
      showTimeout := some s2.nextId,
      nextId := s2.nextId + 1 }

/-- `hideControlPanelDelayed`: start a 500 ms hide timer.  Note that the
source overwrites the `hideTimeout` variable without clearing a previous
pending hide timer, and does not touch the show timer. -/
def hideControlPanelDelayed (s : HoverState) : HoverState :=
  { s with
    pending := s.pending ++ [(s.nextId, TimerPayload.hidePanel)],
    hideTimeout := some s.nextId,
    nextId := s.nextId + 1 }

/-- The rendering part of `showControlPanelNow`: remove the previously
tracked panel and bridge, append the new pair, and track the new address. -/
def showControlPanelNow (s : HoverState) (addr : String) : HoverState :=
  let panels1 := match s.controlPanel with
    | some a => s.panels.erase a
    | none => s.panels
  let bridges1 := if s.controlPanelBridge then s.bridges - 1 else s.bridges
  { s with
    panels := panels1 ++ [addr],
    bridges := bridges1 + 1,
    controlPanel := some addr,
    controlPanelBridge := true,
    currentPanelAddress := some addr }

/-- Removal of the panel/bridge pair (hide-timer callback body, also the
outside-click handler body): timers are *not* cleared here, exactly as in
the source. -/
def removePanelAndBridge (s : HoverState) : HoverState :=
  let panels1 := match s.controlPanel with
    | some a => s.panels.erase a
    | none => s.panels
  let bridges1 := if s.controlPanelBridge then s.bridges - 1 else s.bridges
  { s with
    panels := panels1,
    bridges := bridges1,
    controlPanel := none,
    controlPanelBridge := false,
    currentPanelAddress := none }

/-- The document-level click handler: only acts while a panel exists. -/
def clickOutsidePanel (s : HoverState) : HoverState :=
  if s.controlPanel.isSome then removePanelAndBridge s else s

/-- Firing a timer that is still enqueued: a show timer checks the
stale-address guard (`pendingShowAddress !== address`) before rendering. -/
def fireTimer (s : HoverState) (id : Nat) : HoverState :=
  match s.pending.find? (fun q => decide (q.1 = id)) with
  | none => s
  | some (_, TimerPayload.showPanel addr) =>
    let s1 := { s with pending := removeTimer s.pending id }
    if s1.pendingShowAddress = some addr then showControlPanelNow s1 addr else s1
  | some (_, TimerPayload.hidePanel) =>
    removePanelAndBridge { s with pending := removeTimer s.pending id }

inductive HoverEvent where
  | enter (addr : String)
  | leave
  | panelEnter
  | clickOutside
  | fire (id : Nat)
deriving DecidableEq, Repr

def step (s : HoverState) : HoverEvent → HoverState
  | HoverEvent.enter addr => showControlPanel s addr
  | HoverEvent.leave => hideControlPanelDelayed s
  | HoverEvent.panelEnter => clearHideTimeout s
  | HoverEvent.clickOutside => clickOutsidePanel s
  | HoverEvent.fire id => fireTimer s id

def steps (s : HoverState) (es : List HoverEvent) : HoverState := es.foldl step s

/-- **C6.** Hover show-delay guard: hovering `A` for less than the show
delay (its timer never fires) and then hovering `B` renders no panel for
`A` — `A`'s show timer is cancelled and can no longer fire — and `B`'s
timer firing renders exactly one panel, for `B`. -/
theorem C6_hover_show_delay_guard (A B : String) (hAB : A ≠ B) :
    (step initState (HoverEvent.enter A)).panels = [] ∧
    (step (step initState (HoverEvent.enter A)) (HoverEvent.enter B)).panels = [] ∧
    (∀ i, (i, TimerPayload.showPanel A) ∉
      (step (step initState (HoverEvent.enter A)) (HoverEvent.enter B)).pending) ∧
    step (step (step initState (HoverEvent.enter A)) (HoverEvent.enter B))
        (HoverEvent.fire 0) =
      step (step initState (HoverEvent.enter A)) (HoverEvent.enter B) ∧
    (steps initState
      [HoverEvent.enter A, HoverEvent.enter B, HoverEvent.fire 1]).panels = [B] ∧
    (steps initState
      [HoverEvent.enter A, HoverEvent.enter B, HoverEvent.fire 1]).currentPanelAddress =
      some B := by
  refine ⟨rfl, ?_, ?_, ?_, ?_, ?_⟩ <;>
    simp [steps, step, showControlPanel, clearHideTimeout, clearShowTimeout, removeTimer,
      fireTimer, showControlPanelNow, initState, List.foldl, hAB, Ne.symm hAB]

/-- Witness for C6 at concrete addresses. -/
theorem C6_hover_show_delay_guard_witness :
    (step initState (HoverEvent.enter "0xa")).panels = [] ∧
    (step (step initState (HoverEvent.enter "0xa")) (HoverEvent.enter "0xb")).panels = [] ∧
    (∀ i, (i, TimerPayload.showPanel "0xa") ∉
      (step (step initState (HoverEvent.enter "0xa")) (HoverEvent.enter "0xb")).pending) ∧
    step (step (step initState (HoverEvent.enter "0xa")) (HoverEvent.enter "0xb"))
        (HoverEvent.fire 0) =
      step (step initState (HoverEvent.enter "0xa")) (HoverEvent.enter "0xb") ∧
    (steps initState
      [HoverEvent.enter "0xa", HoverEvent.enter "0xb", HoverEvent.fire 1]).panels =
      ["0xb"] ∧
    (steps initState
      [HoverEvent.enter "0xa", HoverEvent.enter "0xb",
        HoverEvent.fire 1]).currentPanelAddress = some "0xb" :=
  C6_hover_show_delay_guard "0xa" "0xb" (by decide)

/-- **C7 counterexample.** The mouseleave transition does not cancel a
pending show timer: after hover(A) then leave, A's show timer is still
enqueued, and firing it renders the panel for A even though the pointer
already left. -/
theorem C7_counterexample :
    ((0, TimerPayload.showPanel "0xaa") ∈
      (steps initState [HoverEvent.enter "0xaa", HoverEvent.leave]).pending) ∧
    (steps initState
      [HoverEvent.enter "0xaa", HoverEvent.leave, HoverEvent.fire 0]).panels =
      ["0xaa"] := by
  decide

theorem not_mem_removeTimer (l : List (Nat × TimerPayload)) (i : Nat)
    (pl : TimerPayload) : (i, pl) ∉ removeTimer l i := by
  intro h
  have := (List.mem_filter.mp h).2
  simp at this

theorem mem_removeTimer_sub {l : List (Nat × TimerPayload)} {j : Nat}
    {q : Nat × TimerPayload} (h : q ∈ removeTimer l j) : q ∈ l :=
  (List.mem_filter.mp h).1

theorem clearHideTimeout_showTimeout (s : HoverState) :
    (clearHideTimeout s).showTimeout = s.showTimeout := by
  rw [clearHideTimeout]
  cases s.hideTimeout <;> rfl

theorem clearHideTimeout_nextId (s : HoverState) :
    (clearHideTimeout s).nextId = s.nextId := by
  rw [clearHideTimeout]
  cases s.hideTimeout <;> rfl

theorem clearShowTimeout_nextId (s : HoverState) :
    (clearShowTimeout s).nextId = s.nextId := by
  rw [clearShowTimeout]
  cases s.showTimeout <;> rfl

theorem clearShowTimeout_pending_of {s : HoverState} {i : Nat}
    (h : s.showTimeout = some i) :
    (clearShowTimeout s).pending = removeTimer s.pending i := by
  rw [clearShowTimeout, h]

theorem clearHideTimeout_pending_of {s : HoverState} {i : Nat}
    (h : s.hideTimeout = some i) :
    (clearHideTimeout s).pending = removeTimer s.pending i := by
  rw [clearHideTimeout, h]

theorem clearShowTimeout_pending_sub {s : HoverState} {q : Nat × TimerPayload}
    (h : q ∈ (clearShowTimeout s).pending) : q ∈ s.pending := by
  rw [clearShowTimeout] at h
  cases hs : s.showTimeout with
  | none => rw [hs] at h; exact h
  | some i => rw [hs] at h; exact mem_removeTimer_sub h

/-- **C7 (amended).** Timer cancellation as the code actually provides it:
hovering an address (other than the one whose panel is already shown)
cancels both the tracked show timer and the tracked hide timer before a new
show timer is started, and entering the panel or bridge cancels the tracked
hide timer; a pending show timer, however, is not cancelled on mouseleave
and can still fire afterwards (see the counterexample). -/
theorem C7_timer_cancellation_amended (s : HoverState) (B : String)
    (hguard : ¬ (s.currentPanelAddress = some B ∧ s.controlPanel.isSome = true))
    (hfreshS : ∀ i, s.showTimeout = some i → i < s.nextId)
    (hfreshH : ∀ i, s.hideTimeout = some i → i < s.nextId) :
    (∀ i pl, s.showTimeout = some i →
      (i, pl) ∉ (step s (HoverEvent.enter B)).pending) ∧
    (∀ i pl, s.hideTimeout = some i →
      (i, pl) ∉ (step s (HoverEvent.enter B)).pending) ∧
    (∀ i pl, s.hideTimeout = some i →
      (i, pl) ∉ (step s HoverEvent.panelEnter).pending) := by
  have hstep : step s (HoverEvent.enter B) =
      (let s2 := clearShowTimeout (clearHideTimeout s)
       { s2 with
         pendingShowAddress := some B,
         pending := s2.pending ++ [(s2.nextId, TimerPayload.showPanel B)],
         showTimeout := some s2.nextId,
         nextId := s2.nextId + 1 }) := by
    rw [step, showControlPanel, if_neg hguard]
  refine ⟨?_, ?_, ?_⟩
  · intro i pl hsi hmem
    rw [hstep] at hmem
    have hnext : (clearShowTimeout (clearHideTimeout s)).nextId = s.nextId := by
      rw [clearShowTimeout_nextId, clearHideTimeout_nextId]
    rcases List.mem_append.mp hmem with hl | hr
    · have hsi2 : (clearHideTimeout s).showTimeout = some i := by
        rw [clearHideTimeout_showTimeout]
        exact hsi
      rw [clearShowTimeout_pending_of hsi2] at hl
      exact not_mem_removeTimer _ i pl hl
    · rw [hnext] at hr
      simp only [List.mem_singleton, Prod.mk.injEq] at hr
      have := hfreshS i hsi
      omega
  · intro i pl hhi hmem
    rw [hstep] at hmem
    have hnext : (clearShowTimeout (clearHideTimeout s)).nextId = s.nextId := by
      rw [clearShowTimeout_nextId, clearHideTimeout_nextId]
    rcases List.mem_append.mp hmem with hl | hr
    · have hl2 := clearShowTimeout_pending_sub hl
      rw [clearHideTimeout_pending_of hhi] at hl2
      exact not_mem_removeTimer _ i pl hl2
    · rw [hnext] at hr
      simp only [List.mem_singleton, Prod.mk.injEq] at hr
      have := hfreshH i hhi
      omega
  · intro i pl hhi hmem
    rw [step, clearHideTimeout_pending_of hhi] at hmem
    exact not_mem_removeTimer _ i pl hmem

/-- Witness for the amended C7, in the state "panel visible for `0xa`, hide
timer pending" reached by hover, fire, leave. -/
theorem C7_timer_cancellation_amended_witness :
    (∀ i pl, (steps initState
        [HoverEvent.enter "0xa", HoverEvent.fire 0, HoverEvent.leave]).showTimeout =
          some i →
      (i, pl) ∉ (step (steps initState
        [HoverEvent.enter "0xa", HoverEvent.fire 0, HoverEvent.leave])
        (HoverEvent.enter "0xb")).pending) ∧
    (∀ i pl, (steps initState
        [HoverEvent.enter "0xa", HoverEvent.fire 0, HoverEvent.leave]).hideTimeout =
          some i →
      (i, pl) ∉ (step (steps initState
        [HoverEvent.enter "0xa", HoverEvent.fire 0, HoverEvent.leave])
        (HoverEvent.enter "0xb")).pending) ∧
    (∀ i pl, (steps initState
        [HoverEvent.enter "0xa", HoverEvent.fire 0, HoverEvent.leave]).hideTimeout =
          some i →
      (i, pl) ∉ (step (steps initState
        [HoverEvent.enter "0xa", HoverEvent.fire 0, HoverEvent.leave])
        HoverEvent.panelEnter).pending) :=
  C7_timer_cancellation_amended
    (steps initState [HoverEvent.enter "0xa", HoverEvent.fire 0, HoverEvent.leave])
    "0xb" (by decide) (by decide) (by decide)

/-! ### Idempotence of the annotation walk (C1) -/

section Idem

variable (known : List String) (tagc : String → Option TagData)
  (matchShort : String → List String → Option String)

theorem scanChildren_nil (chain : List Elem) (tagSkip oM aM e : Bool) :
    scanChildren known tagc matchShort chain tagSkip oM aM [] e = ([], e) := by
  rw [scanChildren]

theorem scanChildren_text_skip (chain : List Elem) (tagSkip oM aM e : Bool)
    (s : String) (rest : List Node) (h : (tagSkip || oM) = true) :
    scanChildren known tagc matchShort chain tagSkip oM aM (Node.text s :: rest) e =
      (Node.text s ::
        (scanChildren known tagc matchShort chain tagSkip oM aM rest e).1,
       (scanChildren known tagc matchShort chain tagSkip oM aM rest e).2) := by
  rw [scanChildren, if_pos h]

theorem scanChildren_text_go (chain : List Elem) (tagSkip oM aM e : Bool)
    (s : String) (rest : List Node) (h : ¬ (tagSkip || oM) = true) :
    scanChildren known tagc matchShort chain tagSkip oM aM (Node.text s :: rest) e =
      ((processTextChild known tagc matchShort chain (oM || aM || e) s).1 ++
        (scanChildren known tagc matchShort chain tagSkip oM aM rest
          (e || (processTextChild known tagc matchShort chain (oM || aM || e) s).2)).1,
       (scanChildren known tagc matchShort chain tagSkip oM aM rest
          (e || (processTextChild known tagc matchShort chain (oM || aM || e) s).2)).2) := by
  rw [scanChildren, if_neg h]

theorem scanChildren_elem (chain : List Elem) (tagSkip oM aM e : Bool)
    (f : Elem) (fcs rest : List Node) :
    scanChildren known tagc matchShort chain tagSkip oM aM (Node.elem f fcs :: rest) e =
      (Node.elem
          (if (scanChildren known tagc matchShort (f :: chain) (isSkipTag f)
              (oM || hasMarkerClass f) (aM || e) fcs false).2
            then addProcessedClass f else f)
          (scanChildren known tagc matchShort (f :: chain) (isSkipTag f)
              (oM || hasMarkerClass f) (aM || e) fcs false).1 ::
        (scanChildren known tagc matchShort chain tagSkip oM aM rest e).1,
       (scanChildren known tagc matchShort chain tagSkip oM aM rest e).2) := by
  rw [scanChildren]

/-- Once the accumulator is set, it stays set across the fold. -/
theorem scanChildren_mono : ∀ (cs : List Node) (chain : List Elem) (tagSkip oM aM : Bool),
    (scanChildren known tagc matchShort chain tagSkip oM aM cs true).2 = true := by
  apply nodeList_ind (P := fun cs => ∀ (chain : List Elem) (tagSkip oM aM : Bool),
    (scanChildren known tagc matchShort chain tagSkip oM aM cs true).2 = true)
  · intro chain tagSkip oM aM
    rw [scanChildren_nil]
  · intro s rest ih chain tagSkip oM aM
    by_cases h : (tagSkip || oM) = true
    · rw [scanChildren_text_skip known tagc matchShort chain tagSkip oM aM true s rest h]
      exact ih chain tagSkip oM aM
    · rw [scanChildren_text_go known tagc matchShort chain tagSkip oM aM true s rest h]
      simp only [Bool.true_or]
      exact ih chain tagSkip oM aM
  · intro f fcs rest _ ihr chain tagSkip oM aM
    rw [scanChildren_elem]
    exact ihr chain tagSkip oM aM

/-- Under an already-marked ancestor (walker rejection), the walk is the
identity and adds no mark. -/
theorem scanChildren_marked : ∀ (cs : List Node) (chain : List Elem) (tagSkip aM e : Bool),
    scanChildren known tagc matchShort chain tagSkip true aM cs e = (cs, e) := by
  apply nodeList_ind (P := fun cs => ∀ (chain : List Elem) (tagSkip aM e : Bool),
    scanChildren known tagc matchShort chain tagSkip true aM cs e = (cs, e))
  · intro chain tagSkip aM e
    rw [scanChildren_nil]
  · intro s rest ih chain tagSkip aM e
    rw [scanChildren_text_skip known tagc matchShort chain tagSkip true aM e s rest
      (by simp), ih chain tagSkip aM e]
  · intro f fcs rest ihf ihr chain tagSkip aM e
    rw [scanChildren_elem]
    rw [show (true || hasMarkerClass f) = true from Bool.true_or _]
    rw [ihf (f :: chain) (isSkipTag f) (aM || e) false, ihr chain tagSkip aM e]
    rfl

/-- A text child that did not mark its parent was left unchanged. -/
theorem processTextChild_snd_false (chain : List Elem) (mN : Bool) (s : String)
    (h : (processTextChild known tagc matchShort chain mN s).2 = false) :
    (processTextChild known tagc matchShort chain mN s).1 = [Node.text s] := by
  rw [processTextChild] at h ⊢
  cases hma : findAddressesInText s with
  | cons m ms =>
    rw [hma] at h
    simp at h
  | nil =>
    rw [hma] at h
    simp only [] at h ⊢
    by_cases hk : known.isEmpty = true
    · rw [if_pos hk]
    · rw [if_neg hk]
      rw [if_neg hk] at h
      by_cases hm : mN = true
      · rw [if_pos hm]
      · rw [if_neg hm]
        rw [if_neg hm] at h
        cases hpt : processTruncated known matchShort chain s with
        | none => rfl
        | some r =>
          rw [hpt] at h
          obtain ⟨i, len, addr⟩ := r
          simp at h

theorem addProcessed_contains (f : Elem) :
    (addProcessedClass f).classes.contains "wt-processed" = true := by
  rw [addProcessedClass]
  by_cases h : f.classes.contains "wt-processed" = true
  · rw [if_pos h]
    exact h
  · rw [if_neg h]
    simp

theorem hasMarker_of_processed (f : Elem)
    (h : f.classes.contains "wt-processed" = true) : hasMarkerClass f = true := by
  rw [hasMarkerClass, List.any_eq_true]
  refine ⟨"wt-processed", ?_, by decide⟩
  simpa using h

theorem hasMarker_addProcessed (f : Elem) :
    hasMarkerClass (addProcessedClass f) = true :=
  hasMarker_of_processed _ (addProcessed_contains f)

/-- Unfolding of the walk at a text child with all flags clear. -/
theorem scanChildren_text_go0 (chain : List Elem) (tagSkip : Bool) (s : String)
    (rest : List Node) (h : ¬ tagSkip = true) :
    scanChildren known tagc matchShort chain tagSkip false false (Node.text s :: rest)
      false =
      ((processTextChild known tagc matchShort chain false s).1 ++
        (scanChildren known tagc matchShort chain tagSkip false false rest
          (processTextChild known tagc matchShort chain false s).2).1,
       (scanChildren known tagc matchShort chain tagSkip false false rest
          (processTextChild known tagc matchShort chain false s).2).2) := by
  rw [scanChildren_text_go known tagc matchShort chain tagSkip false false false s rest
    (by simp [h])]
  simp only [Bool.false_or, Bool.or_false]

/-- Unfolding of the walk at an element child with all flags clear. -/
theorem scanChildren_elem0 (chain : List Elem) (tagSkip : Bool) (f : Elem)
    (fcs rest : List Node) :
    scanChildren known tagc matchShort chain tagSkip false false (Node.elem f fcs :: rest)
      false =
      (Node.elem
          (if (scanChildren known tagc matchShort (f :: chain) (isSkipTag f)
              (hasMarkerClass f) false fcs false).2
            then addProcessedClass f else f)
          (scanChildren known tagc matchShort (f :: chain) (isSkipTag f)
              (hasMarkerClass f) false fcs false).1 ::
        (scanChildren known tagc matchShort chain tagSkip false false rest false).1,
       (scanChildren known tagc matchShort chain tagSkip false false rest false).2) := by
  rw [scanChildren_elem]
  simp only [Bool.false_or, Bool.or_false]

/-- The heart of C1: rescanning the output of an (unmarked-ancestry,
mark-free) pass leaves it untouched and adds no mark. -/
theorem scanChildren_idem : ∀ (cs : List Node) (chain : List Elem) (tagSkip : Bool)
    (out : List Node),
    scanChildren known tagc matchShort chain tagSkip false false cs false = (out, false) →
    scanChildren known tagc matchShort chain tagSkip false false out false =
      (out, false) := by
  apply nodeList_ind (P := fun cs => ∀ (chain : List Elem) (tagSkip : Bool)
    (out : List Node),
    scanChildren known tagc matchShort chain tagSkip false false cs false = (out, false) →
    scanChildren known tagc matchShort chain tagSkip false false out false = (out, false))
  · intro chain tagSkip out h
    rw [scanChildren_nil] at h
    have hout : out = [] := (congrArg Prod.fst h).symm
    subst hout
    rw [scanChildren_nil]
  · intro s rest ih chain tagSkip out h
    by_cases htag : tagSkip = true
    · have hcond : (tagSkip || false) = true := by rw [htag]; rfl
      rw [scanChildren_text_skip known tagc matchShort chain tagSkip false false false
        s rest hcond] at h
      have hsnd : (scanChildren known tagc matchShort chain tagSkip false false rest
          false).2 = false := congrArg Prod.snd h
      have hrest : scanChildren known tagc matchShort chain tagSkip false false rest
          false = ((scanChildren known tagc matchShort chain tagSkip false false rest
          false).1, false) := by
        have he := (Prod.mk.eta (p := scanChildren known tagc matchShort chain tagSkip
          false false rest false)).symm
        rw [hsnd] at he
        exact he
      have hout : out = Node.text s ::
          (scanChildren known tagc matchShort chain tagSkip false false rest false).1 :=
        (congrArg Prod.fst h).symm
      subst hout
      rw [scanChildren_text_skip known tagc matchShort chain tagSkip false false false
        s _ hcond, ih chain tagSkip _ hrest]
    · rw [scanChildren_text_go0 known tagc matchShort chain tagSkip s rest htag] at h
      have htn2 : (processTextChild known tagc matchShort chain false s).2 = false := by
        cases htn : (processTextChild known tagc matchShort chain false s).2 with
        | false => rfl
        | true =>
          rw [htn] at h
          have hsnd := congrArg Prod.snd h
          simp only [] at hsnd
          rw [scanChildren_mono known tagc matchShort rest chain tagSkip false false]
            at hsnd
          exact Bool.noConfusion hsnd
      have hone : (processTextChild known tagc matchShort chain false s).1 =
          [Node.text s] :=
        processTextChild_snd_false known tagc matchShort chain false s htn2
      rw [htn2] at h
      have hsnd : (scanChildren known tagc matchShort chain tagSkip false false rest
          false).2 = false := congrArg Prod.snd h
      have hrest : scanChildren known tagc matchShort chain tagSkip false false rest
          false = ((scanChildren known tagc matchShort chain tagSkip false false rest
          false).1, false) := by
        have he := (Prod.mk.eta (p := scanChildren known tagc matchShort chain tagSkip
          false false rest false)).symm
        rw [hsnd] at he
        exact he
      have hout : out = (processTextChild known tagc matchShort chain false s).1 ++
          (scanChildren known tagc matchShort chain tagSkip false false rest false).1 :=
        (congrArg Prod.fst h).symm
      subst hout
      rw [hone]
      rw [show ([Node.text s] ++
          (scanChildren known tagc matchShort chain tagSkip false false rest false).1) =
          (Node.text s ::
          (scanChildren known tagc matchShort chain tagSkip false false rest false).1)
          from rfl]
      rw [scanChildren_text_go0 known tagc matchShort chain tagSkip s _ htag, htn2, hone,
        ih chain tagSkip _ hrest]
      rfl
  · intro f fcs rest ihf ihr chain tagSkip out h
    rw [scanChildren_elem0] at h
    have hsnd : (scanChildren known tagc matchShort chain tagSkip false false rest
        false).2 = false := congrArg Prod.snd h
    have hrest : scanChildren known tagc matchShort chain tagSkip false false rest
        false = ((scanChildren known tagc matchShort chain tagSkip false false rest
        false).1, false) := by
      have he := (Prod.mk.eta (p := scanChildren known tagc matchShort chain tagSkip
        false false rest false)).symm
      rw [hsnd] at he
      exact he
    have hout : out = Node.elem
        (if (scanChildren known tagc matchShort (f :: chain) (isSkipTag f)
            (hasMarkerClass f) false fcs false).2
          then addProcessedClass f else f)
        (scanChildren known tagc matchShort (f :: chain) (isSkipTag f)
            (hasMarkerClass f) false fcs false).1 ::
        (scanChildren known tagc matchShort chain tagSkip false false rest false).1 :=
      (congrArg Prod.fst h).symm
    subst hout
    by_cases hmk : hasMarkerClass f = true
    · have hFR : scanChildren known tagc matchShort (f :: chain) (isSkipTag f)
          (hasMarkerClass f) false fcs false = (fcs, false) := by
        rw [hmk]
        exact scanChildren_marked known tagc matchShort fcs (f :: chain) (isSkipTag f)
          false false
      rw [hFR]
      rw [show (if ((fcs, false) : List Node × Bool).2 = true
          then addProcessedClass f else f) = f from rfl]
      rw [scanChildren_elem0, hmk,
        scanChildren_marked known tagc matchShort ((fcs, false) :
          List Node × Bool).1 (f :: chain) (isSkipTag f) false false,
        ihr chain tagSkip _ hrest]
      rfl
    · have hmkf : hasMarkerClass f = false := Bool.eq_false_iff.mpr hmk
      rw [hmkf] at h ⊢
      by_cases hFR2 : (scanChildren known tagc matchShort (f :: chain) (isSkipTag f)
          false false fcs false).2 = true
      · rw [if_pos hFR2]
        rw [scanChildren_elem0, hasMarker_addProcessed,
          scanChildren_marked known tagc matchShort
            (scanChildren known tagc matchShort (f :: chain) (isSkipTag f)
              false false fcs false).1
            (addProcessedClass f :: chain) (isSkipTag (addProcessedClass f)) false false,
          ihr chain tagSkip _ hrest]
        rfl
      · rw [if_neg hFR2]
        have hFR2f : (scanChildren known tagc matchShort (f :: chain) (isSkipTag f)
            false false fcs false).2 = false :=
          Bool.eq_false_iff.mpr hFR2
        have hfcs : scanChildren known tagc matchShort (f :: chain) (isSkipTag f)
            false false fcs false =
            ((scanChildren known tagc matchShort (f :: chain) (isSkipTag f)
              false false fcs false).1, false) := by
          have he := (Prod.mk.eta (p := scanChildren known tagc matchShort (f :: chain)
            (isSkipTag f) false false fcs false)).symm
          rw [hFR2f] at he
          exact he
        have hinner := ihf (f :: chain) (isSkipTag f) _ hfcs
        rw [scanChildren_elem0, hmkf, hinner, ihr chain tagSkip _ hrest]
        rfl

theorem scanPage_elem (body : Elem) (cs : List Node) :
    scanPage known tagc matchShort (Node.elem body cs) =
      Node.elem
        (if (scanChildren known tagc matchShort [] (isSkipTag body)
            (hasMarkerClass body) false cs false).2
          then addProcessedClass body else body)
        (scanChildren known tagc matchShort [] (isSkipTag body)
            (hasMarkerClass body) false cs false).1 := by
  rw [scanPage]

end Idem

/-- **C1.** The annotation walk is idempotent: running `scanPage` a second
time on the document produced by a first run (with the same known-address
list, tag cache, and short-address matcher — the latter quantified because
`matchShortAddress` is not among the provided sources) produces the same
DOM: no text node is processed twice and no address element is
double-wrapped, because processing marks the containing element, and any
element carrying the marker — or with an ancestor carrying it, or belonging
to the extension's own injected UI classes — is skipped unconditionally. -/
theorem C1_scanPage_idempotent (known : List String) (tagc : String → Option TagData)
    (matchShort : String → List String → Option String) (d : Node) :
    scanPage known tagc matchShort (scanPage known tagc matchShort d) =
      scanPage known tagc matchShort d := by
  cases d with
  | text s => rfl
  | elem body cs =>
    by_cases hmk : hasMarkerClass body = true
    · have hp1 : scanPage known tagc matchShort (Node.elem body cs) =
          Node.elem body cs := by
        rw [scanPage_elem, hmk,
          scanChildren_marked known tagc matchShort cs [] (isSkipTag body) false false]
        rfl
      rw [hp1]
      exact hp1
    · have hmkf : hasMarkerClass body = false := Bool.eq_false_iff.mpr hmk
      rw [scanPage_elem, hmkf]
      by_cases hb2 : (scanChildren known tagc matchShort [] (isSkipTag body) false false
          cs false).2 = true
      · rw [if_pos hb2, scanPage_elem, hasMarker_addProcessed,
          scanChildren_marked known tagc matchShort _ []
            (isSkipTag (addProcessedClass body)) false false]
        rfl
      · rw [if_neg hb2]
        have hb2f : (scanChildren known tagc matchShort [] (isSkipTag body) false false
            cs false).2 = false := Bool.eq_false_iff.mpr hb2
        have hcs : scanChildren known tagc matchShort [] (isSkipTag body) false false
            cs false =
            ((scanChildren known tagc matchShort [] (isSkipTag body) false false
              cs false).1, false) := by
          have he := (Prod.mk.eta (p := scanChildren known tagc matchShort []
            (isSkipTag body) false false cs false)).symm
          rw [hb2f] at he
          exact he
        have hid := scanChildren_idem known tagc matchShort cs [] (isSkipTag body) _ hcs
        rw [scanPage_elem, hmkf, hid]
        rfl

end AddrHelper
